import Mathlib

/-!
# Shallow embedding of the aws-service-quotas-exporter quota-usage engine

This file embeds the Go package `servicequotas` of the
`aws-service-quotas-exporter` repository (files `service_quotas.go`,
`tags.go`, `ecr_limits.go`, `logs_limits.go`, `glue_limits.go`,
`ses_limits.go`, the EC2 limits file and the kinesis-analytics limits file)
and proves/refutes the frozen specification claims about it.

Modelling conventions:
* AWS SDK paginated calls (`XxxPages(params, fn)`) are modelled by a `Paged α`
  value: the list of pages the provider would deliver, plus an optional
  transport error hit when fetching the page *after* the listed ones.  The
  SDK invokes the page callback with a `lastPage` flag that is true exactly
  on the final page of an error-free pagination; a callback returning `false`
  stops pagination early (no further fetch, hence no transport error).
* Go functions returning `([]QuotaUsage, error)` are modelled as
  `List QuotaUsage × Option SQErr`; a Go `nil` slice and an empty slice are
  both modelled as `[]`.
* `float64` quota/usage arithmetic is modelled with `ℚ`; every computation
  performed by this program on the inputs appearing in the claims is exact
  in binary64, so the rational model is faithful there.
* Go string-pointer (`*string`) equality, used by `ConcurrentRunsCheck`, is
  pointer identity; pointers are modelled as an address (`ℕ`) paired with
  the pointed-to string, and `aws.String` allocations are modelled by an
  allocation stream whose freshness is an explicit hypothesis.
-/

/-- Opaque payload of an underlying AWS SDK / transport error (its message). -/
abbrev ApiErr := String

/-- The error values returned from the `servicequotas` package
(`service_quotas.go` lines 25-30).  `errors.Wrapf(E, "%w", inner)` is
modelled as the constructor for `E` carrying the wrapped error payload. -/
inductive SQErr where
  | invalidRegion : SQErr
  | failedToListQuotas (inner : ApiErr) : SQErr
  | failedToGetUsage (inner : ApiErr) : SQErr
  | failedToConvertCidr (inner : ApiErr) : SQErr
deriving DecidableEq, Repr

/-- `QuotaUsage` record (`service_quotas.go` lines 100-120).  Go zero values
are the structure defaults; the Go `Tags` map is modelled as an association
list (`nil` map as `[]`). -/
structure QuotaUsage where
  name : String
  resourceName : Option String := none
  description : String := ""
  usage : ℚ
  quota : ℚ := 0
  tags : List (String × String) := []
deriving DecidableEq, Repr

/-- `QuotaUsage.Identifier` (`service_quotas.go` lines 124-129). -/
def QuotaUsage.identifier (q : QuotaUsage) : String :=
  match q.resourceName with
  | some r => r
  | none => q.name

/-! ## tags.go -/

/-- Membership in the character class `[a-zA-Z0-9_]`, the complement of
`invalidLabelCharactersRE` (`tags.go` line 12). -/
def isValidLabelChar (c : Char) : Bool :=
  c.isUpper || c.isLower || c.isDigit || c = '_'

/-- One character of `invalidLabelCharactersRE.ReplaceAllString(s, "_")`. -/
def replaceInvalidLabelChar (c : Char) : Char :=
  if isValidLabelChar c then c else '_'

/-- `matchAllCap.ReplaceAllString(s, "${1}_${2}")` (`tags.go` lines 13, 22):
insert `_` inside every leftmost non-overlapping match of the regular
expression `([a-z0-9])([A-Z])`; after a match the scan resumes after the
matched two-character pair. -/
def insertCapUnderscores : List Char → List Char
  | [] => []
  | [c] => [c]
  | a :: b :: rest =>
    if (a.isLower || a.isDigit) && b.isUpper then
      a :: '_' :: b :: insertCapUnderscores rest
    else
      a :: insertCapUnderscores (b :: rest)

/-- `toSnakeCase` (`tags.go` lines 21-24).  `strings.ToLower` is Unicode
lowercasing, but every string this program feeds to it is ASCII (the
composition below first replaces every non-ASCII character), where it agrees
with `Char.toLower`. -/
def toSnakeCase (s : String) : String :=
  String.mk ((insertCapUnderscores s.data).map Char.toLower)

/-- `ToPrometheusNamingFormat` (`tags.go` lines 17-19). -/
def ToPrometheusNamingFormat (s : String) : String :=
  toSnakeCase (String.mk (s.data.map replaceInvalidLabelChar))

/-- `ec2TagsToQuotaUsageTags` (EC2 limits file, lines 390-402), with the Go
map modelled as an association list in input order. -/
def ec2TagsToQuotaUsageTags (tags : List (String × String)) : List (String × String) :=
  tags.map (fun t => (ToPrometheusNamingFormat t.1, t.2))

/-! ## Paginated enumeration -/

/-- A paginated AWS listing call: the pages the provider delivers in order,
then an optional transport failure occurring when the SDK fetches the page
after `pages` (so `err = some e` means every listed page is delivered with
`lastPage = false` and the call then fails with `e`, provided the callback
keeps returning `true`). -/
structure Paged (α : Type) where
  pages : List α
  err : Option ApiErr := none

/-- The SDK pagination driver: deliver each page to `f` together with the
`lastPage` flag; `f` returns the updated state and whether to continue.
Returns the final state and the transport error, surfaced only when
pagination was not stopped early by the callback. -/
def runPages {α σ : Type} (f : α → Bool → σ → σ × Bool) :
    List α → Option ApiErr → σ → σ × Option ApiErr
  | [], e, s => (s, e)
  | p :: rest, e, s =>
    let last := rest.isEmpty && e.isNone
    let (s2, cont) := f p last s
    if cont then runPages f rest e s2 else (s2, none)

/-! ## The catalog walk (`quotasForService` / `defaultsForService`) -/

/-- One catalog entry as used by the walk: the quota code and the quota
value (`*quota.QuotaCode`, `*quota.Value`). -/
structure CatQuota where
  code : String
  value : ℚ
deriving DecidableEq, Repr

/-- A registry of usage checks, keyed by quota code.  Invoking a check's
`Usage()` during one refresh is deterministic, so a registered check is
modelled directly by the result of that invocation. -/
abbrev CheckRegistry := String → Option (List QuotaUsage × Option SQErr)

/-- The body of the page callback of `quotasForService`
(`service_quotas.go` lines 244-258): iterate the page's quotas; for a
registered code invoke the check; on check error record it and stop
processing this page; on success append each returned record with `Quota`
overwritten by the catalog value. -/
def catalogPageLoop (checks : CheckRegistry) :
    List CatQuota → List QuotaUsage → List QuotaUsage × Option SQErr
  | [], acc => (acc, none)
  | q :: rest, acc =>
    match checks q.code with
    | none => catalogPageLoop checks rest acc
    | some (_, some e) => (acc, some e)
    | some (usages, none) =>
      catalogPageLoop checks rest (acc ++ usages.map (fun u => { u with quota := q.value }))

/-- The shared shape of the page callbacks of `quotasForService`,
`defaultsForService` and `AvailableIpsPerSubnetUsageCheck.Usage`: run the
per-page body on the accumulated records; if it reports an error, record it
and return `true` (the source comments say "stop paging" but returning
`true` continues); otherwise keep the previously recorded error and return
`!lastPage`. -/
def pageCallback {α : Type}
    (body : α → List QuotaUsage → List QuotaUsage × Option SQErr)
    (page : α) (lastPage : Bool) (st : List QuotaUsage × Option SQErr) :
    (List QuotaUsage × Option SQErr) × Bool :=
  match body page st.1 with
  | (acc2, some e) => ((acc2, some e), true)
  | (acc2, none) => ((acc2, st.2), !lastPage)

/-- The page callback of `quotasForService` (`service_quotas.go` lines
242-261). -/
def catalogPageStep (checks : CheckRegistry) :
    List CatQuota → Bool → List QuotaUsage × Option SQErr →
    (List QuotaUsage × Option SQErr) × Bool :=
  pageCallback (catalogPageLoop checks)

/-- Common body of `quotasForService` (`service_quotas.go` lines 236-272)
and `defaultsForService` (lines 201-234), which are textually identical up
to the registry and the catalog listing used: run the paginated catalog
walk; a transport error wraps into `ErrFailedToListQuotas` and returns
`nil`; otherwise a recorded usage error returns `nil`; otherwise return the
accumulated records. -/
def catalogWalk (checks : CheckRegistry) (src : Paged (List CatQuota)) :
    List QuotaUsage × Option SQErr :=
  match runPages (catalogPageStep checks) src.pages src.err ([], none) with
  | (_, some e) => ([], some (SQErr.failedToListQuotas e))
  | ((_, some usageErr), none) => ([], some usageErr)
  | ((acc, none), none) => (acc, none)

/-- `quotasForService` applied to service `svc`, given the per-service
catalog listing `catalog` and the service-specific check registry. -/
def quotasForService (checks : CheckRegistry)
    (catalog : String → Paged (List CatQuota)) (svc : String) :
    List QuotaUsage × Option SQErr :=
  catalogWalk checks (catalog svc)

/-- `defaultsForService` applied to service `svc`, given the per-service
default-catalog listing and the default check registry. -/
def defaultsForService (checks : CheckRegistry)
    (catalog : String → Paged (List CatQuota)) (svc : String) :
    List QuotaUsage × Option SQErr :=
  catalogWalk checks (catalog svc)

/-! ## QuotasAndUsage -/

/-- `allServices` (`service_quotas.go` lines 32-34). -/
def allServices : List String :=
  ["ec2", "vpc", "rds", "ecr", "ecs", "logs", "kinesisanalytics", "redshift", "ebs", "glue"]

/-- The per-service loops of `QuotasAndUsage` (lines 279-298): walk the
services in order, return `nil` and the error as soon as one walk fails,
otherwise concatenate the records in walk order. -/
def walkServices (f : String → List QuotaUsage × Option SQErr) :
    List String → List QuotaUsage × Option SQErr
  | [] => ([], none)
  | svc :: rest =>
    match f svc with
    | (_, some e) => ([], some e)
    | (qs, none) =>
      match walkServices f rest with
      | (_, some e) => ([], some e)
      | (qs2, none) => (qs ++ qs2, none)

/-- The `otherUsageChecks` loop of `QuotasAndUsage` (lines 301-310): run
every no-formal-quota check, returning `nil` and the error as soon as one
fails, otherwise concatenating their records. -/
def walkOtherChecks : List (List QuotaUsage × Option SQErr) →
    List QuotaUsage × Option SQErr
  | [] => ([], none)
  | ch :: rest =>
    match ch with
    | (_, some e) => ([], some e)
    | (qs, none) =>
      match walkOtherChecks rest with
      | (_, some e) => ([], some e)
      | (qs2, none) => (qs ++ qs2, none)

/-- The environment a refresh call runs against: the per-service catalog
listings, the two registries (as invocation results), the no-formal-quota
check results, and the China-partition flag (`ServiceQuotas` struct fields,
`service_quotas.go` lines 133-141). -/
structure SQEnv where
  isAwsChina : Bool
  serviceQuotaPages : String → Paged (List CatQuota)
  defaultQuotaPages : String → Paged (List CatQuota)
  serviceChecks : CheckRegistry
  defaultChecks : CheckRegistry
  otherChecks : List (List QuotaUsage × Option SQErr)

/-- `QuotasAndUsage` (`service_quotas.go` lines 275-313): unless the region
is in the China partition, walk the service-specific catalog for every
service, then the default catalog for every service; then run the
no-formal-quota checks; any failure returns `nil` and that error. -/
def QuotasAndUsage (s : SQEnv) : List QuotaUsage × Option SQErr :=
  if s.isAwsChina then
    walkOtherChecks s.otherChecks
  else
    match walkServices (quotasForService s.serviceChecks s.serviceQuotaPages) allServices with
    | (_, some e) => ([], some e)
    | (qs1, none) =>
      match walkServices (defaultsForService s.defaultChecks s.defaultQuotaPages) allServices with
      | (_, some e) => ([], some e)
      | (qs2, none) =>
        match walkOtherChecks s.otherChecks with
        | (_, some e) => ([], some e)
        | (qs3, none) => (qs1 ++ qs2 ++ qs3, none)

/-! ## strconv.Atoi -/

/-- The digit-accumulation of `strconv.Atoi` on an all-digit run. -/
def digitsVal (ds : List Char) : ℤ :=
  ds.foldl (fun a c => a * 10 + ((c.toNat : ℤ) - 48)) 0

/-- Sign-stripped core of `strconv.Atoi`: a non-empty all-digit string
parses to its value, anything else is a syntax error (`none`).  The
out-of-range failure of the Go function cannot occur on the two-character
inputs this program feeds it. -/
def atoiCore (ds : List Char) (sign : ℤ) : Option ℤ :=
  if ds.isEmpty then none
  else if ds.all Char.isDigit then some (sign * digitsVal ds)
  else none

/-- `strconv.Atoi`: optional single leading sign, then a non-empty run of
decimal digits. -/
def atoi (s : String) : Option ℤ :=
  match s.data with
  | '+' :: rest => atoiCore rest 1
  | '-' :: rest => atoiCore rest (-1)
  | ds => atoiCore ds 1

/-! ## AvailableIpsPerSubnetUsageCheck (EC2 limits file, lines 335-388) -/

def availableIPsPerSubnetName : String := "available_ips_per_subnet"

def availableIPsPerSubnetDesc : String := "available IPs per subnet"

/-- One subnet as consumed by the check: `*subnet.CidrBlock`,
`*subnet.AvailableIpAddressCount`, `subnet.SubnetId`, `subnet.Tags`. -/
structure Subnet where
  cidrBlock : String
  availableIpAddressCount : ℤ
  subnetId : Option String := none
  tags : List (String × String) := []
deriving DecidableEq, Repr

/-- The Go expression `cidrBlock[len(cidrBlock)-2:]` (line 357): the last
two bytes of the CIDR string.  For a string of length < 2 the Go slice
expression panics; no claim and no theorem below touches that case (every
CIDR stated anywhere has length ≥ 2). -/
def lastTwoChars (s : String) : String :=
  String.mk (s.data.drop (s.data.length - 2))

/-- The per-subnet loop of the page callback (lines 355-374): on the first
subnet whose sliced CIDR suffix fails `strconv.Atoi`, record the
`ErrFailedToConvertCidr` wrap and stop processing the page; otherwise
append one record with `usage = 2^(32-blockedBits) - available` and
`Quota` set BY THE STRATEGY to `2^(32-blockedBits)`. -/
def subnetPageLoop : List Subnet → List QuotaUsage → List QuotaUsage × Option SQErr
  | [], acc => (acc, none)
  | sn :: rest, acc =>
    match atoi (lastTwoChars sn.cidrBlock) with
    | none => (acc, some (SQErr.failedToConvertCidr (lastTwoChars sn.cidrBlock)))
    | some blockedBits =>
      let maxNumOfIPs : ℚ := (2 : ℚ) ^ (32 - blockedBits)
      subnetPageLoop rest (acc ++
        [⟨availableIPsPerSubnetName, sn.subnetId, availableIPsPerSubnetDesc,
          maxNumOfIPs - (sn.availableIpAddressCount : ℚ), maxNumOfIPs,
          ec2TagsToQuotaUsageTags sn.tags⟩])

/-- The page callback (lines 353-377): the same shape as the catalog walk
callback, with the per-subnet loop as the page body. -/
def AvailableIpsPerSubnetUsageCheck.pageStep :
    List Subnet → Bool → List QuotaUsage × Option SQErr →
    (List QuotaUsage × Option SQErr) × Bool :=
  pageCallback subnetPageLoop

/-- `AvailableIpsPerSubnetUsageCheck.Usage` (lines 347-388). -/
def AvailableIpsPerSubnetUsageCheck.Usage (src : Paged (List Subnet)) :
    List QuotaUsage × Option SQErr :=
  match runPages AvailableIpsPerSubnetUsageCheck.pageStep src.pages src.err ([], none) with
  | (_, some e) => ([], some (SQErr.failedToGetUsage e))
  | ((_, some convErr), none) => ([], some convErr)
  | ((acc, none), none) => (acc, none)

/-! ## MaxSendIn24HoursCheck (ses_limits.go) -/

def maxSendIn24HoursName : String := "max_send_in_24_hours"

def maxSendIn24HoursDescription : String := "max send in 24 hours"

/-- The two `GetAccount` response fields the check reads. -/
structure SESSendQuota where
  max24HourSend : ℚ
  sentLast24Hours : ℚ
deriving DecidableEq, Repr

/-- `MaxSendIn24HoursCheck.Usage` (`ses_limits.go` lines 18-35): one
`GetAccount` call; on success a single record whose `Quota` is set BY THE
STRATEGY to the account's `Max24HourSend` (line 30). -/
def MaxSendIn24HoursCheck.Usage (resp : Except ApiErr SESSendQuota) :
    List QuotaUsage × Option SQErr :=
  match resp with
  | .error e => ([], some (SQErr.failedToGetUsage e))
  | .ok acct =>
    ([⟨maxSendIn24HoursName, none, maxSendIn24HoursDescription,
       acct.sentLast24Hours, acct.max24HourSend, []⟩], none)

/-! ## ECR checks (ecr_limits.go) -/

def repositoriesPerRegionName : String := "repositories_per_region"

def repositoriesPerRegionDescription : String := "repositories per region"

def imagesPerRepositoryName : String := "images_per_repository"

def imagesPerRepositoryDescription : String := "images per repository"

/-- Page callback of `RepositoriesPerRegionCheck.Usage` (`ecr_limits.go`
lines 28-38): add the page's repository count to the running count and
append a record carrying the running count FOR EVERY PAGE (the append is
inside the page callback in the source). -/
def RepositoriesPerRegionCheck.pageStep (page : List String) (lastPage : Bool)
    (st : ℕ × List QuotaUsage) : (ℕ × List QuotaUsage) × Bool :=
  let count := st.1 + page.length
  ((count, st.2 ++
    [⟨repositoriesPerRegionName, none, repositoriesPerRegionDescription,
      (count : ℚ), 0, []⟩]), !lastPage)

/-- `RepositoriesPerRegionCheck.Usage` (`ecr_limits.go` lines 21-46), with
`page.Repositories` modelled by the page's list of repository names. -/
def RepositoriesPerRegionCheck.Usage (src : Paged (List String)) :
    List QuotaUsage × Option SQErr :=
  match runPages RepositoriesPerRegionCheck.pageStep src.pages src.err (0, []) with
  | (_, some e) => ([], some (SQErr.failedToGetUsage e))
  | ((_, acc), none) => (acc, none)

/-- A page callback that appends the page's elements to a list accumulator
(used to collect repository names, `ecr_limits.go` lines 59-66). -/
def collectStep {β : Type} (page : List β) (lastPage : Bool) (acc : List β) :
    List β × Bool :=
  (acc ++ page, !lastPage)

/-- A page callback that adds the page's element count to a counter
(`ecr_limits.go` lines 76-81, `logs_limits.go` lines 24-30). -/
def countStep {β : Type} (page : List β) (lastPage : Bool) (n : ℕ) : ℕ × Bool :=
  (n + page.length, !lastPage)

/-- The listing sources `ImagesPerRepositoryCheck` consumes: the repository
catalog and, per repository name, the image listing. -/
structure EcrEnv where
  repositories : Paged (List String)
  images : String → Paged (List String)

/-- The per-repository second pass of `ImagesPerRepositoryCheck.Usage`
(`ecr_limits.go` lines 72-96): count each repository's images; an inner
listing error returns `nil` and the wrapped error immediately. -/
def ImagesPerRepositoryCheck.perRepoLoop (images : String → Paged (List String)) :
    List String → List QuotaUsage → List QuotaUsage × Option SQErr
  | [], acc => (acc, none)
  | repo :: rest, acc =>
    match runPages countStep (images repo).pages (images repo).err 0 with
    | (_, some e) => ([], some (SQErr.failedToGetUsage e))
    | (n, none) =>
      ImagesPerRepositoryCheck.perRepoLoop images rest (acc ++
        [⟨imagesPerRepositoryName, some repo, imagesPerRepositoryDescription,
          (n : ℚ), 0, []⟩])

/-- `ImagesPerRepositoryCheck.Usage` (`ecr_limits.go` lines 52-99). -/
def ImagesPerRepositoryCheck.Usage (env : EcrEnv) : List QuotaUsage × Option SQErr :=
  match runPages collectStep env.repositories.pages env.repositories.err [] with
  | (_, some e) => ([], some (SQErr.failedToGetUsage e))
  | (repos, none) => ImagesPerRepositoryCheck.perRepoLoop env.images repos []

/-! ## LogGroupsPerRegionCheck (logs_limits.go) -/

def logGroupsPerRegionName : String := "log_groups_per_region"

def logGroupsPerRegionDescription : String := "log groups per region"

/-- `LogGroupsPerRegionCheck.Usage` (`logs_limits.go` lines 18-42): count
log groups across all pages, then build a SINGLE record after pagination. -/
def LogGroupsPerRegionCheck.Usage (src : Paged (List String)) :
    List QuotaUsage × Option SQErr :=
  match runPages countStep src.pages src.err 0 with
  | (_, some e) => ([], some (SQErr.failedToGetUsage e))
  | (n, none) =>
    ([⟨logGroupsPerRegionName, none, logGroupsPerRegionDescription,
       (n : ℚ), 0, []⟩], none)

/-! ## Glue checks (glue_limits.go) -/

def concurrentRunsPerJobName : String := "concurrent_runs_per_glue_job"

def concurrentRunsPerJobDescription : String := "concurrent runs per glue job"

def concurrentRunsName : String := "concurrent_running_glue_jobs"

def concurrentRunsDescription : String := "concurrent running glue jobs"

/-- A glue job as consumed by `ConcurrentRunsPerJobCheck`: `job.Name` and
`*job.ExecutionProperty.MaxConcurrentRuns`. -/
structure GlueJob where
  name : Option String := none
  maxConcurrentRuns : ℤ
deriving DecidableEq, Repr

/-- Page callback of `ConcurrentRunsPerJobCheck.Usage` (`glue_limits.go`
lines 117-130): one record per job on the page. -/
def ConcurrentRunsPerJobCheck.pageStep (page : List GlueJob) (lastPage : Bool)
    (acc : List QuotaUsage) : List QuotaUsage × Bool :=
  (acc ++ page.map (fun job =>
    ⟨concurrentRunsPerJobName, job.name, concurrentRunsPerJobDescription,
     (job.maxConcurrentRuns : ℚ), 0, []⟩), !lastPage)

/-- `ConcurrentRunsPerJobCheck.Usage` (`glue_limits.go` lines 112-137): a
per-job fan-out; with no jobs it returns an empty record list. -/
def ConcurrentRunsPerJobCheck.Usage (src : Paged (List GlueJob)) :
    List QuotaUsage × Option SQErr :=
  match runPages ConcurrentRunsPerJobCheck.pageStep src.pages src.err [] with
  | (_, some e) => ([], some (SQErr.failedToGetUsage e))
  | (acc, none) => (acc, none)

/-- A Go `*string`: a heap address plus the pointed-to value.  Go `==` on
two `*string` operands compares the addresses only, never the values. -/
structure GoStrPtr where
  addr : ℕ
  val : String
deriving DecidableEq, Repr

/-- A glue job run as consumed by `ConcurrentRunsCheck`: its
`JobRunState` field, a `*string`. -/
structure JobRun where
  jobRunState : GoStrPtr
deriving DecidableEq, Repr

/-- Outcome of running a Go function that may panic instead of returning. -/
inductive GoOutcome (α : Type) where
  | ret (val : α) : GoOutcome α
  | panicked (e : ApiErr) : GoOutcome α
deriving DecidableEq, Repr

/-- The sources `ConcurrentRunsCheck` consumes, plus the allocator:
`alloc n` is the address of the pointer returned by the n-th evaluation of
`aws.String(glue.JobRunStateRunning)` during the walk (its pointed-to value
is always the string RUNNING). -/
structure GlueRunsEnv where
  jobPages : Paged (List String)
  jobRuns : String → Paged (List JobRun)
  alloc : ℕ → ℕ

/-- Inner page callback of `ConcurrentRunsCheck.Usage` (`glue_limits.go`
lines 188-197).  State: (aws.String allocation counter, running count).
For each run on the page, line 191 compares `run.JobRunState`, a pointer,
with a FRESHLY ALLOCATED `aws.String(...)` pointer: address equality. -/
def ConcurrentRunsCheck.runsStep (alloc : ℕ → ℕ) (page : List JobRun) (lastPage : Bool)
    (st : ℕ × ℕ) : (ℕ × ℕ) × Bool :=
  (page.foldl (fun st run =>
    (st.1 + 1, if run.jobRunState.addr = alloc st.1 then st.2 + 1 else st.2)) st,
   !lastPage)

/-- The per-job inner loop of `ConcurrentRunsCheck.Usage` (`glue_limits.go`
lines 185-202): for each job name, page through its runs; an inner
`GetJobRunsPages` error is PANICKED on (line 200), not returned. -/
def ConcurrentRunsCheck.jobsLoop (env : GlueRunsEnv) :
    List String → ℕ × ℕ → GoOutcome (ℕ × ℕ)
  | [], st => .ret st
  | job :: rest, st =>
    match runPages (ConcurrentRunsCheck.runsStep env.alloc)
        (env.jobRuns job).pages (env.jobRuns job).err st with
    | (_, some e) => .panicked e
    | (st2, none) => ConcurrentRunsCheck.jobsLoop env rest st2

/-- The outer `ListJobsPages` pagination of `ConcurrentRunsCheck.Usage`
(`glue_limits.go` lines 181-206), whose callback returns `!lastPage`. -/
def ConcurrentRunsCheck.outerLoop (env : GlueRunsEnv) :
    List (List String) → Option ApiErr → ℕ × ℕ → GoOutcome ((ℕ × ℕ) × Option ApiErr)
  | [], e, st => .ret (st, e)
  | page :: rest, e, st =>
    match ConcurrentRunsCheck.jobsLoop env page st with
    | .panicked pe => .panicked pe
    | .ret st2 =>
      if rest.isEmpty && e.isNone then .ret (st2, none)
      else ConcurrentRunsCheck.outerLoop env rest e st2

/-- `ConcurrentRunsCheck.Usage` (`glue_limits.go` lines 176-219). -/
def ConcurrentRunsCheck.Usage (env : GlueRunsEnv) :
    GoOutcome (List QuotaUsage × Option SQErr) :=
  match ConcurrentRunsCheck.outerLoop env env.jobPages.pages env.jobPages.err (0, 0) with
  | .panicked pe => .panicked pe
  | .ret (_, some e) => .ret ([], some (SQErr.failedToGetUsage e))
  | .ret ((_, count), none) =>
    .ret ([⟨concurrentRunsName, none, concurrentRunsDescription,
            (count : ℚ), 0, []⟩], none)

/-! ## Generic pagination lemmas -/

/-- If the page callback only ever declines to continue on a genuine last
page, the transport error of the source is exactly the error the paginated
call reports. -/
theorem runPages_err {α σ : Type} {f : α → Bool → σ → σ × Bool}
    (hf : ∀ p l s, (f p l s).2 = false → l = true) :
    ∀ (pages : List α) (e : Option ApiErr) (s : σ), (runPages f pages e s).2 = e := by
  intro pages
  induction pages with
  | nil => intro e s; rfl
  | cons p rest ih =>
    intro e s
    rw [runPages]
    rcases hfp : f p (rest.isEmpty && e.isNone) s with ⟨s2, cont⟩
    cases cont with
    | true => simpa using ih e s2
    | false =>
      have hl : (rest.isEmpty && e.isNone) = true := hf _ _ _ (by rw [hfp])
      have he : e = none := by
        rcases e with _ | e
        · rfl
        · simp at hl
      simp [he]

/-- A state predicate preserved by every callback invocation is preserved
by the whole pagination. -/
theorem runPages_invariant {α σ : Type} {f : α → Bool → σ → σ × Bool}
    (P : σ → Prop) (hf : ∀ p l s, P s → P (f p l s).1) :
    ∀ (pages : List α) (e : Option ApiErr) (s : σ), P s → P (runPages f pages e s).1 := by
  intro pages
  induction pages with
  | nil => intro e s hs; exact hs
  | cons p rest ih =>
    intro e s hs
    rw [runPages]
    rcases hfp : f p (rest.isEmpty && e.isNone) s with ⟨s2, cont⟩
    have hs2 : P s2 := by have := hf p (rest.isEmpty && e.isNone) s hs; rwa [hfp] at this
    cases cont with
    | true => simpa using ih e s2 hs2
    | false => simpa using hs2

/-- `pageCallback` never declines to continue except on a genuine last
page. -/
theorem pageCallback_cont {α : Type}
    (body : α → List QuotaUsage → List QuotaUsage × Option SQErr)
    (p : α) (l : Bool) (st : List QuotaUsage × Option SQErr)
    (h : (pageCallback body p l st).2 = false) : l = true := by
  unfold pageCallback at h
  rcases hb : body p st.1 with ⟨acc2, eo⟩
  rcases eo with _ | e
  · rw [hb] at h
    simp at h
    simpa using h
  · rw [hb] at h
    simp at h

/-- An error recorded in the state survives to the end of the pagination. -/
theorem runPages_pageCallback_mono {α : Type}
    (body : α → List QuotaUsage → List QuotaUsage × Option SQErr)
    (pages : List α) (e : Option ApiErr) (acc : List QuotaUsage) (err : SQErr) :
    (runPages (pageCallback body) pages e (acc, some err)).1.2 ≠ none := by
  have := runPages_invariant (f := pageCallback body)
    (fun st => st.2 ≠ none) ?hf pages e (acc, some err) (by simp)
  · exact this
  case hf =>
    intro p l s hs
    unfold pageCallback
    rcases hb : body p s.1 with ⟨acc2, eo⟩
    rcases eo with _ | e2
    · simpa using hs
    · simp

/-- The final recorded error is `none` iff nothing was recorded initially
and no page's body reports an error, where "reports an error" is the
page property `P` characterising the body's error behaviour. -/
theorem runPages_pageCallback_err_iff {α : Type}
    (body : α → List QuotaUsage → List QuotaUsage × Option SQErr)
    (P : α → Prop)
    (hbody : ∀ page acc, (body page acc).2 ≠ none ↔ P page) :
    ∀ (pages : List α) (e : Option ApiErr) (acc : List QuotaUsage) (u : Option SQErr),
      ((runPages (pageCallback body) pages e (acc, u)).1.2 ≠ none ↔
        (u ≠ none ∨ ∃ p ∈ pages, P p)) := by
  intro pages
  induction pages with
  | nil =>
    intro e acc u
    simp [runPages]
  | cons p rest ih =>
    intro e acc u
    rw [runPages]
    rcases hb : body p acc with ⟨acc2, eo⟩
    have hstep : pageCallback body p (rest.isEmpty && e.isNone) (acc, u) =
        match body p acc with
        | (acc2, some e2) => ((acc2, some e2), true)
        | (acc2, none) => ((acc2, u), !(rest.isEmpty && e.isNone)) := rfl
    rcases eo with _ | e2
    · -- no error on this page
      have hnp : ¬ P p := by
        have := hbody p acc
        rw [hb] at this
        simpa using (this.not).mp (by simp)
      rw [hstep, hb]
      rcases hcont : !(rest.isEmpty && e.isNone) with _ | _
      · -- last page: pagination stops, state is (acc2, u)
        simp only [hcont, Bool.false_eq_true, if_false]
        have hrest : rest = [] := by
          cases rest with
          | nil => rfl
          | cons a b => simp at hcont
        subst hrest
        simp [hnp]
      · simp only [hcont, if_true]
        rw [ih e acc2 u]
        constructor
        · rintro (hu | ⟨q, hq, hP⟩)
          · exact Or.inl hu
          · exact Or.inr ⟨q, by simp [hq], hP⟩
        · rintro (hu | ⟨q, hq, hP⟩)
          · exact Or.inl hu
          · rcases List.mem_cons.mp hq with rfl | hq2
            · exact absurd hP hnp
            · exact Or.inr ⟨q, hq2, hP⟩
    · -- the page records error e2
      have hP : P p := by
        have := hbody p acc
        rw [hb] at this
        exact this.mp (by simp)
      rw [hstep, hb]
      simp only
      have hfin := runPages_pageCallback_mono body rest e acc2 e2
      constructor
      · intro _
        exact Or.inr ⟨p, by simp, hP⟩
      · intro _
        exact hfin

/-- If every page body only appends records, the pagination only appends
records. -/
theorem runPages_pageCallback_grow {α : Type}
    (body : α → List QuotaUsage → List QuotaUsage × Option SQErr)
    (hgrow : ∀ page acc, ∃ ext, (body page acc).1 = acc ++ ext) :
    ∀ (pages : List α) (e : Option ApiErr) (st : List QuotaUsage × Option SQErr),
      ∃ ext, (runPages (pageCallback body) pages e st).1.1 = st.1 ++ ext := by
  intro pages e st
  have := runPages_invariant (f := pageCallback body)
    (fun s => ∃ ext, s.1 = st.1 ++ ext) ?hf pages e st ⟨[], by simp⟩
  · exact this
  case hf =>
    rintro p l s ⟨ext, hs⟩
    unfold pageCallback
    rcases hb : body p s.1 with ⟨acc2, eo⟩
    obtain ⟨ext2, hext2⟩ := hgrow p s.1
    rw [hb] at hext2
    have hacc2 : acc2 = s.1 ++ ext2 := hext2
    rcases eo with _ | e2
    · exact ⟨ext ++ ext2, by simp [hacc2, hs]⟩
    · exact ⟨ext ++ ext2, by simp [hacc2, hs]⟩

/-- If some page `p0` of the pagination always contributes the record `x`
when its body succeeds, and the walk ends with no recorded error, then `x`
is in the final accumulated records. -/
theorem runPages_pageCallback_mem {α : Type}
    (body : α → List QuotaUsage → List QuotaUsage × Option SQErr)
    (hgrow : ∀ page acc, ∃ ext, (body page acc).1 = acc ++ ext)
    (x : QuotaUsage) (p0 : α)
    (hx : ∀ acc, (body p0 acc).2 = none → x ∈ (body p0 acc).1) :
    ∀ (pages : List α) (e : Option ApiErr) (st : List QuotaUsage × Option SQErr),
      p0 ∈ pages →
      (runPages (pageCallback body) pages e st).1.2 = none →
      x ∈ (runPages (pageCallback body) pages e st).1.1 := by
  intro pages
  induction pages with
  | nil => intro e st hp0; simp at hp0
  | cons p rest ih =>
    intro e st hp0 hfin
    rw [runPages] at hfin ⊢
    rcases hb : body p st.1 with ⟨acc2, eo⟩
    have hstep : pageCallback body p (rest.isEmpty && e.isNone) st =
        match body p st.1 with
        | (acc2, some e2) => ((acc2, some e2), true)
        | (acc2, none) => ((acc2, st.2), !(rest.isEmpty && e.isNone)) := rfl
    rcases eo with _ | e2
    · rw [hstep, hb] at hfin ⊢
      simp only at hfin ⊢
      rcases hcont : !(rest.isEmpty && e.isNone) with _ | _
      · -- pagination stops after this page
        simp only [hcont, Bool.false_eq_true, if_false] at hfin ⊢
        have hrest : rest = [] := by
          cases rest with
          | nil => rfl
          | cons a b => simp at hcont
        subst hrest
        rcases List.mem_cons.mp hp0 with rfl | h
        · have := hx st.1
          rw [hb] at this
          exact this rfl
        · simp at h
      · simp only [hcont, if_true] at hfin ⊢
        rcases List.mem_cons.mp hp0 with rfl | h
        · -- x lands in acc2 and survives the remaining pages
          have hxin : x ∈ acc2 := by
            have := hx st.1
            rw [hb] at this
            exact this rfl
          obtain ⟨ext, hext⟩ :=
            runPages_pageCallback_grow body hgrow rest e (acc2, st.2)
          rw [hext]
          exact List.mem_append_left _ hxin
        · exact ih e (acc2, st.2) h hfin
    · -- the page records an error: contradicts the error-free ending
      rw [hstep, hb] at hfin
      simp only [if_true] at hfin
      exact absurd hfin (runPages_pageCallback_mono body rest e acc2 e2)

/-! ## Catalog-walk lemmas -/

/-- The page body of the catalog walk reports an error iff the page holds a
registered quota code whose check invocation failed. -/
theorem catalogPageLoop_err_iff (checks : CheckRegistry) :
    ∀ (quotas : List CatQuota) (acc : List QuotaUsage),
      ((catalogPageLoop checks quotas acc).2 ≠ none ↔
        ∃ q ∈ quotas, ∃ r, checks q.code = some r ∧ r.2 ≠ none) := by
  intro quotas
  induction quotas with
  | nil => intro acc; simp [catalogPageLoop]
  | cons q rest ih =>
    intro acc
    rw [catalogPageLoop]
    rcases hc : checks q.code with _ | ⟨us, eo⟩
    · simp only
      rw [ih acc]
      constructor
      · rintro ⟨q2, hq2, r, hr, hr2⟩
        exact ⟨q2, by simp [hq2], r, hr, hr2⟩
      · rintro ⟨q2, hq2, r, hr, hr2⟩
        rcases List.mem_cons.mp hq2 with rfl | h
        · rw [hc] at hr; cases hr
        · exact ⟨q2, h, r, hr, hr2⟩
    · rcases eo with _ | e
      · simp only
        rw [ih]
        constructor
        · rintro ⟨q2, hq2, r, hr, hr2⟩
          exact ⟨q2, by simp [hq2], r, hr, hr2⟩
        · rintro ⟨q2, hq2, r, hr, hr2⟩
          rcases List.mem_cons.mp hq2 with rfl | h
          · rw [hc] at hr
            cases hr
            simp at hr2
          · exact ⟨q2, h, r, hr, hr2⟩
      · simp only
        constructor
        · intro _
          exact ⟨q, by simp, (us, some e), hc, by simp⟩
        · intro _
          simp

/-- The catalog page body only appends records. -/
theorem catalogPageLoop_grow (checks : CheckRegistry) :
    ∀ (quotas : List CatQuota) (acc : List QuotaUsage),
      ∃ ext, (catalogPageLoop checks quotas acc).1 = acc ++ ext := by
  intro quotas
  induction quotas with
  | nil => intro acc; exact ⟨[], by simp [catalogPageLoop]⟩
  | cons q rest ih =>
    intro acc
    rw [catalogPageLoop]
    rcases hc : checks q.code with _ | ⟨us, eo⟩
    · simpa using ih acc
    · rcases eo with _ | e
      · simp only
        obtain ⟨ext2, hext2⟩ := ih (acc ++ us.map (fun u => { u with quota := q.value }))
        exact ⟨us.map (fun u => { u with quota := q.value }) ++ ext2, by simp [hext2]⟩
      · exact ⟨[], by simp⟩

/-- If the catalog page body ends without an error, every record returned
by a check registered for a code on the page lands in the accumulator, with
`Quota` overwritten by that code's catalog value. -/
theorem catalogPageLoop_mem (checks : CheckRegistry)
    (q0 : CatQuota) (us : List QuotaUsage) (u : QuotaUsage)
    (hreg : checks q0.code = some (us, none)) (hu : u ∈ us) :
    ∀ (quotas : List CatQuota) (acc : List QuotaUsage),
      q0 ∈ quotas →
      (catalogPageLoop checks quotas acc).2 = none →
      { u with quota := q0.value } ∈ (catalogPageLoop checks quotas acc).1 := by
  intro quotas
  induction quotas with
  | nil => intro acc h; simp at h
  | cons q rest ih =>
    intro acc hq0 hfin
    rw [catalogPageLoop] at hfin ⊢
    rcases List.mem_cons.mp hq0 with rfl | hmem
    · rw [hreg] at hfin ⊢
      simp only at hfin ⊢
      obtain ⟨ext2, hext2⟩ :=
        catalogPageLoop_grow checks rest (acc ++ us.map (fun v => { v with quota := q0.value }))
      rw [hext2]
      have : ({ u with quota := q0.value } : QuotaUsage) ∈
          us.map (fun v => { v with quota := q0.value }) :=
        List.mem_map_of_mem _ hu
      exact List.mem_append_left _ (List.mem_append_right _ this)
    · rcases hc : checks q.code with _ | ⟨us2, eo⟩
      · rw [hc] at hfin
        simp only at hfin ⊢
        exact ih acc hmem hfin
      · rw [hc] at hfin
        rcases eo with _ | e
        · simp only at hfin ⊢
          exact ih _ hmem hfin
        · simp at hfin

/-- The catalog walk never pairs records with an error: any error comes
with an empty (Go `nil`) record list. -/
theorem catalogWalk_err_nil (checks : CheckRegistry) (src : Paged (List CatQuota))
    (h : (catalogWalk checks src).2 ≠ none) : (catalogWalk checks src).1 = [] := by
  unfold catalogWalk at h ⊢
  rcases hR : runPages (catalogPageStep checks) src.pages src.err ([], none) with ⟨⟨acc, u⟩, le⟩
  rcases le with _ | e
  · rcases u with _ | ue
    · rw [hR] at h; simp at h
    · simp
  · simp

/-- The catalog walk fails iff the catalog enumeration itself fails or some
enumerated page carries a registered quota code whose check failed. -/
theorem catalogWalk_err_iff (checks : CheckRegistry) (src : Paged (List CatQuota)) :
    ((catalogWalk checks src).2 ≠ none ↔
      src.err ≠ none ∨
        ∃ p ∈ src.pages, ∃ q ∈ p, ∃ r, checks q.code = some r ∧ r.2 ≠ none) := by
  unfold catalogWalk catalogPageStep
  rcases hR : runPages (pageCallback (catalogPageLoop checks)) src.pages src.err ([], none)
    with ⟨⟨acc, u⟩, le⟩
  have hle : le = src.err := by
    have := runPages_err (f := pageCallback (catalogPageLoop checks))
      (pageCallback_cont (catalogPageLoop checks)) src.pages src.err ([], none)
    rw [hR] at this
    exact this
  have hu := runPages_pageCallback_err_iff (catalogPageLoop checks) _
    (catalogPageLoop_err_iff checks) src.pages src.err [] none
  rw [hR] at hu
  simp only at hu
  rcases le with _ | e
  · rcases u with _ | ue
    · simp only
      constructor
      · intro h; simp at h
      · rintro (h | h)
        · rw [← hle] at h; simp at h
        · exact absurd (hu.mpr (Or.inr h)) (by simp)
    · simp only
      constructor
      · intro _
        have := hu.mp (by simp)
        rcases this with h | h
        · simp at h
        · exact Or.inr h
      · intro _; simp
  · simp only
    constructor
    · intro _
      exact Or.inl (by rw [← hle]; simp)
    · intro _; simp

/-- If the catalog walk succeeds, every record returned by a check
registered for an enumerated code is in the result, with `Quota`
overwritten by the catalog value of that code. -/
theorem catalogWalk_mem (checks : CheckRegistry) (src : Paged (List CatQuota))
    (p0 : List CatQuota) (q0 : CatQuota) (us : List QuotaUsage) (u : QuotaUsage)
    (hp : p0 ∈ src.pages) (hq : q0 ∈ p0)
    (hreg : checks q0.code = some (us, none)) (hu : u ∈ us)
    (hok : (catalogWalk checks src).2 = none) :
    { u with quota := q0.value } ∈ (catalogWalk checks src).1 := by
  unfold catalogWalk catalogPageStep at hok ⊢
  rcases hR : runPages (pageCallback (catalogPageLoop checks)) src.pages src.err ([], none)
    with ⟨⟨acc, uerr⟩, le⟩
  rw [hR] at hok
  rcases le with _ | e
  · rcases uerr with _ | ue
    · simp only
      have := runPages_pageCallback_mem (catalogPageLoop checks)
        (catalogPageLoop_grow checks) { u with quota := q0.value } p0
        (fun a ha => catalogPageLoop_mem checks q0 us u hreg hu p0 a hq ha)
        src.pages src.err ([], none) hp (by rw [hR])
      rw [hR] at this
      exact this
    · simp at hok
  · simp at hok

/-! ## Service-walk lemmas -/

/-- Unfolding equation for the error case of the per-service loop. -/
theorem walkServices_cons_err (f : String → List QuotaUsage × Option SQErr)
    (svc : String) (rest : List String) (qs : List QuotaUsage) (e : SQErr)
    (hf : f svc = (qs, some e)) :
    walkServices f (svc :: rest) = ([], some e) := by
  rw [walkServices, hf]

/-- Unfolding equation for the success case of the per-service loop. -/
theorem walkServices_cons_ok (f : String → List QuotaUsage × Option SQErr)
    (svc : String) (rest : List String) (qs : List QuotaUsage)
    (hf : f svc = (qs, none)) :
    walkServices f (svc :: rest) =
      match walkServices f rest with
      | (_, some e) => ([], some e)
      | (qs2, none) => (qs ++ qs2, none) := by
  rw [walkServices, hf]

/-- The per-service loop never pairs records with an error. -/
theorem walkServices_err_nil (f : String → List QuotaUsage × Option SQErr) :
    ∀ (l : List String), (walkServices f l).2 ≠ none → (walkServices f l).1 = [] := by
  intro l
  induction l with
  | nil => intro h; simp [walkServices] at h
  | cons svc rest ih =>
    intro h
    rcases hf : f svc with ⟨qs, e⟩
    rcases e with _ | e
    · rcases hr : walkServices f rest with ⟨qs2, e2⟩
      rw [walkServices_cons_ok f svc rest qs hf, hr] at h ⊢
      rcases e2 with _ | e2
      · simp at h
      · simp
    · rw [walkServices_cons_err f svc rest qs e hf]

/-- The per-service loop fails iff some service's walk fails. -/
theorem walkServices_err_iff (f : String → List QuotaUsage × Option SQErr) :
    ∀ (l : List String),
      ((walkServices f l).2 ≠ none ↔ ∃ svc ∈ l, (f svc).2 ≠ none) := by
  intro l
  induction l with
  | nil => simp [walkServices]
  | cons svc rest ih =>
    rcases hf : f svc with ⟨qs, e⟩
    rcases e with _ | e
    · rcases hr : walkServices f rest with ⟨qs2, e2⟩
      rw [walkServices_cons_ok f svc rest qs hf, hr]
      rw [hr] at ih
      rcases e2 with _ | e2
      · simp only
        constructor
        · intro h; simp at h
        · rintro ⟨s2, hs2, hfs2⟩
          rcases List.mem_cons.mp hs2 with rfl | h2
          · rw [hf] at hfs2; simp at hfs2
          · exact absurd (ih.mpr ⟨s2, h2, hfs2⟩) (by simp)
      · simp only
        constructor
        · intro _
          obtain ⟨s2, hs2, hfs2⟩ := ih.mp (by simp)
          exact ⟨s2, by simp [hs2], hfs2⟩
        · intro _; simp
    · rw [walkServices_cons_err f svc rest qs e hf]
      simp only
      constructor
      · intro _
        exact ⟨svc, by simp, by rw [hf]; simp⟩
      · intro _; simp

/-- If the per-service loop succeeds, every record of every service's walk
is in the concatenated result. -/
theorem walkServices_mem (f : String → List QuotaUsage × Option SQErr) (svc : String)
    (x : QuotaUsage) :
    ∀ (l : List String), svc ∈ l → (walkServices f l).2 = none →
      x ∈ (f svc).1 → x ∈ (walkServices f l).1 := by
  intro l
  induction l with
  | nil => intro h; simp at h
  | cons s rest ih =>
    intro hsvc hok hx
    rcases hf : f s with ⟨qs, e⟩
    rcases e with _ | e
    · rcases hr : walkServices f rest with ⟨qs2, e2⟩
      rw [walkServices_cons_ok f s rest qs hf, hr] at hok ⊢
      rcases e2 with _ | e2
      · simp only at hok ⊢
        rcases List.mem_cons.mp hsvc with rfl | h2
        · rw [hf] at hx
          exact List.mem_append_left _ hx
        · have := ih h2 (by rw [hr]) hx
          rw [hr] at this
          exact List.mem_append_right _ this
      · simp at hok
    · rw [walkServices_cons_err f s rest qs e hf] at hok
      simp at hok

/-- Unfolding equation for the error case of the no-formal-quota loop. -/
theorem walkOtherChecks_cons_err (rest : List (List QuotaUsage × Option SQErr))
    (qs : List QuotaUsage) (e : SQErr) :
    walkOtherChecks ((qs, some e) :: rest) = ([], some e) := rfl

/-- Unfolding equation for the success case of the no-formal-quota loop. -/
theorem walkOtherChecks_cons_ok (rest : List (List QuotaUsage × Option SQErr))
    (qs : List QuotaUsage) :
    walkOtherChecks ((qs, none) :: rest) =
      match walkOtherChecks rest with
      | (_, some e) => ([], some e)
      | (qs2, none) => (qs ++ qs2, none) := rfl

/-- The no-formal-quota loop never pairs records with an error. -/
theorem walkOtherChecks_err_nil :
    ∀ (l : List (List QuotaUsage × Option SQErr)),
      (walkOtherChecks l).2 ≠ none → (walkOtherChecks l).1 = [] := by
  intro l
  induction l with
  | nil => intro h; simp [walkOtherChecks] at h
  | cons c rest ih =>
    intro h
    rcases c with ⟨qs, e⟩
    rcases e with _ | e
    · rcases hr : walkOtherChecks rest with ⟨qs2, e2⟩
      rw [walkOtherChecks_cons_ok rest qs, hr] at h ⊢
      rcases e2 with _ | e2
      · simp at h
      · simp
    · rw [walkOtherChecks_cons_err rest qs e]

/-- The no-formal-quota loop fails iff some check failed. -/
theorem walkOtherChecks_err_iff :
    ∀ (l : List (List QuotaUsage × Option SQErr)),
      ((walkOtherChecks l).2 ≠ none ↔ ∃ c ∈ l, c.2 ≠ none) := by
  intro l
  induction l with
  | nil => simp [walkOtherChecks]
  | cons c rest ih =>
    rcases c with ⟨qs, e⟩
    rcases e with _ | e
    · rcases hr : walkOtherChecks rest with ⟨qs2, e2⟩
      rw [walkOtherChecks_cons_ok rest qs, hr]
      rw [hr] at ih
      rcases e2 with _ | e2
      · simp only
        constructor
        · intro h; simp at h
        · rintro ⟨c2, hc2, hce⟩
          rcases List.mem_cons.mp hc2 with rfl | h2
          · simp at hce
          · exact absurd (ih.mpr ⟨c2, h2, hce⟩) (by simp)
      · simp only
        constructor
        · intro _
          obtain ⟨c2, hc2, hce⟩ := ih.mp (by simp)
          exact ⟨c2, by simp [hc2], hce⟩
        · intro _; simp
    · rw [walkOtherChecks_cons_err rest qs e]
      simp only
      constructor
      · intro _
        exact ⟨(qs, some e), by simp, by simp⟩
      · intro _; simp

/-- If the no-formal-quota loop succeeds, every record of every check is in
the concatenated result. -/
theorem walkOtherChecks_mem (x : QuotaUsage) :
    ∀ (l : List (List QuotaUsage × Option SQErr)) (c : List QuotaUsage × Option SQErr),
      c ∈ l → (walkOtherChecks l).2 = none → x ∈ c.1 → x ∈ (walkOtherChecks l).1 := by
  intro l
  induction l with
  | nil => intro c h; simp at h
  | cons c0 rest ih =>
    intro c hc hok hx
    rcases c0 with ⟨qs, e⟩
    rcases e with _ | e
    · rcases hr : walkOtherChecks rest with ⟨qs2, e2⟩
      rw [walkOtherChecks_cons_ok rest qs, hr] at hok ⊢
      rcases e2 with _ | e2
      · simp only at hok ⊢
        rcases List.mem_cons.mp hc with rfl | h2
        · exact List.mem_append_left _ hx
        · have := ih c h2 (by rw [hr]) hx
          rw [hr] at this
          exact List.mem_append_right _ this
      · simp at hok
    · rw [walkOtherChecks_cons_err rest qs e] at hok
      simp at hok

/-! ## C1: fail-fast, no partial results -/

/-- The claim's notion of a failing service walk: the catalog enumeration
itself fails, or some enumerated page carries a registered quota code whose
strategy invocation fails. -/
def catalogWalkFails (checks : CheckRegistry) (src : Paged (List CatQuota)) : Prop :=
  src.err ≠ none ∨ ∃ p ∈ src.pages, ∃ q ∈ p, ∃ r, checks q.code = some r ∧ r.2 ≠ none

/-- The claim's notion of "any quota-catalog enumeration or any strategy
Usage() call fails" during one refresh: a failing service-specific or
default walk for some service (only consulted outside the China partition),
or a failing no-formal-quota check. -/
def refreshFailure (env : SQEnv) : Prop :=
  (env.isAwsChina = false ∧ ∃ svc ∈ allServices,
    (catalogWalkFails env.serviceChecks (env.serviceQuotaPages svc) ∨
     catalogWalkFails env.defaultChecks (env.defaultQuotaPages svc))) ∨
  ∃ c ∈ env.otherChecks, c.2 ≠ none

/-- **C1**: `QuotasAndUsage` never returns partial results: whenever any
quota-catalog enumeration or any strategy invocation fails, it returns a
non-nil error together with a nil record set (even if earlier services had
produced records), and it returns a nil error exactly when nothing fails. -/
theorem quotasAndUsage_fail_fast (env : SQEnv) :
    ((QuotasAndUsage env).2 ≠ none → (QuotasAndUsage env).1 = []) ∧
    ((QuotasAndUsage env).2 = none ↔ ¬ refreshFailure env) := by
  rcases hC : walkOtherChecks env.otherChecks with ⟨qs3, e3⟩
  have hCn := walkOtherChecks_err_nil env.otherChecks
  have hCiff := walkOtherChecks_err_iff env.otherChecks
  rw [hC] at hCn hCiff
  simp only at hCn hCiff
  rcases hch : env.isAwsChina with _ | _
  · -- not the China partition: both catalog walks run
    rcases hA : walkServices (quotasForService env.serviceChecks env.serviceQuotaPages)
      allServices with ⟨qs1, e1⟩
    rcases hB : walkServices (defaultsForService env.defaultChecks env.defaultQuotaPages)
      allServices with ⟨qs2, e2⟩
    have hAiff := walkServices_err_iff
      (quotasForService env.serviceChecks env.serviceQuotaPages) allServices
    have hBiff := walkServices_err_iff
      (defaultsForService env.defaultChecks env.defaultQuotaPages) allServices
    rw [hA] at hAiff
    rw [hB] at hBiff
    simp only at hAiff hBiff
    have hA2 : e1 ≠ none ↔
        ∃ svc ∈ allServices, catalogWalkFails env.serviceChecks (env.serviceQuotaPages svc) :=
      hAiff.trans (exists_congr fun svc => and_congr_right fun _ =>
        catalogWalk_err_iff env.serviceChecks (env.serviceQuotaPages svc))
    have hB2 : e2 ≠ none ↔
        ∃ svc ∈ allServices, catalogWalkFails env.defaultChecks (env.defaultQuotaPages svc) :=
      hBiff.trans (exists_congr fun svc => and_congr_right fun _ =>
        catalogWalk_err_iff env.defaultChecks (env.defaultQuotaPages svc))
    have hRF : refreshFailure env ↔ (e1 ≠ none ∨ e2 ≠ none ∨ e3 ≠ none) := by
      unfold refreshFailure
      rw [hch]
      constructor
      · rintro (⟨-, s, hs, hf | hf⟩ | h)
        · exact Or.inl (hA2.mpr ⟨s, hs, hf⟩)
        · exact Or.inr (Or.inl (hB2.mpr ⟨s, hs, hf⟩))
        · exact Or.inr (Or.inr (hCiff.mpr h))
      · rintro (h | h | h)
        · obtain ⟨s, hs, hf⟩ := hA2.mp h
          exact Or.inl ⟨by trivial, s, hs, Or.inl hf⟩
        · obtain ⟨s, hs, hf⟩ := hB2.mp h
          exact Or.inl ⟨by trivial, s, hs, Or.inr hf⟩
        · exact Or.inr (hCiff.mp h)
    rw [QuotasAndUsage, hch]
    simp only [Bool.false_eq_true, if_false]
    rw [hA]
    rcases e1 with _ | e1
    · simp only
      rw [hB]
      rcases e2 with _ | e2
      · simp only
        rw [hC]
        rcases e3 with _ | e3
        · simp only
          refine ⟨by intro h; simp at h, ?_⟩
          simp only [hRF]
          simp
        · simp only
          refine ⟨fun _ => by trivial, ?_⟩
          simp only [hRF]
          simp
      · simp only
        refine ⟨fun _ => by trivial, ?_⟩
        simp only [hRF]
        simp
    · simp only
      refine ⟨fun _ => by trivial, ?_⟩
      simp only [hRF]
      simp
  · -- China partition: only the no-formal-quota checks run
    have hRF : refreshFailure env ↔ e3 ≠ none := by
      unfold refreshFailure
      rw [hch]
      simp only [Bool.true_eq_false, false_and, false_or]
      exact hCiff.symm
    rw [QuotasAndUsage, hch]
    simp only [if_true]
    rw [hC]
    refine ⟨fun h => hCn h, ?_⟩
    simp only [hRF]
    rcases e3 with _ | e3 <;> simp

/-- A refresh environment whose only failure is one failing
no-formal-quota check, while both catalog walks are healthy. -/
def failEnv : SQEnv :=
  { isAwsChina := false
    serviceQuotaPages := fun _ => ⟨[], none⟩
    defaultQuotaPages := fun _ => ⟨[], none⟩
    serviceChecks := fun _ => none
    defaultChecks := fun _ => none
    otherChecks := [([⟨"asgs", none, "auto scaling groups", 1, 0, []⟩],
                     some (SQErr.failedToGetUsage "asg boom"))] }

/-- Witness for C1 at a concrete failing refresh. -/
theorem quotasAndUsage_fail_fast_witness :
    (QuotasAndUsage failEnv).2 ≠ none ∧ (QuotasAndUsage failEnv).1 = [] :=
  ⟨by decide, (quotasAndUsage_fail_fast failEnv).1 (by decide)⟩

/-! ## C2: the China partition skips both catalog walks -/

/-- **C2** (amended): for a region in the China partition, `QuotasAndUsage`
skips both catalog walks and returns exactly what the no-formal-quota
check loop produces (so `Quota` on each record is whatever the strategy
itself set: zero except for the SES send-quota and subnet-availability
strategies). -/
theorem quotasAndUsage_china (env : SQEnv) (h : env.isAwsChina = true) :
    QuotasAndUsage env = walkOtherChecks env.otherChecks := by
  rw [QuotasAndUsage, h]
  simp only [if_true]

/-- A China-partition refresh whose only no-formal-quota strategy is the
SES send-quota check, answering a `GetAccount` of
`Max24HourSend = 200`, `SentLast24Hours = 50`. -/
def chinaEnv : SQEnv :=
  { isAwsChina := true
    serviceQuotaPages := fun _ => ⟨[], none⟩
    defaultQuotaPages := fun _ => ⟨[], none⟩
    serviceChecks := fun _ => none
    defaultChecks := fun _ => none
    otherChecks := [MaxSendIn24HoursCheck.Usage (Except.ok ⟨200, 50⟩)] }

/-- **C2** (counterexample): in the China partition the refresh succeeds
with records only from the no-formal-quota strategies, but NOT every
record has `Quota = 0`: the SES strategy's record carries the account's
`Max24HourSend` (here 200). -/
theorem quotasAndUsage_china_nonzero_quota :
    (QuotasAndUsage chinaEnv).2 = none ∧
    ∃ u ∈ (QuotasAndUsage chinaEnv).1, u.quota = 200 ∧ u.quota ≠ 0 := by decide

/-- Witness for the amended C2 at a concrete China-partition refresh. -/
theorem quotasAndUsage_china_witness :
    QuotasAndUsage chinaEnv = walkOtherChecks chinaEnv.otherChecks :=
  quotasAndUsage_china chinaEnv (by decide)

/-! ## C3: which strategies leave Quota at its zero value -/

/-- **C3** (counterexample): not every strategy returns records with
`Quota` at its zero value: `MaxSendIn24HoursCheck.Usage` itself sets
`Quota` (to 120 here), before any Aggregator involvement. -/
theorem sesCheck_sets_quota :
    ∃ u ∈ (MaxSendIn24HoursCheck.Usage (Except.ok ⟨120, 30⟩)).1,
      u.quota = 120 ∧ u.quota ≠ 0 := by decide

/-- Helper: the per-repository pass of the ECR images check preserves the
quota-zero invariant of its accumulator. -/
theorem imagesPerRepo_loop_quota_zero (images : String → Paged (List String)) :
    ∀ (repos : List String) (acc : List QuotaUsage),
      (∀ u ∈ acc, u.quota = 0) →
      ∀ u ∈ (ImagesPerRepositoryCheck.perRepoLoop images repos acc).1, u.quota = 0 := by
  intro repos
  induction repos with
  | nil => intro acc hacc; simpa [ImagesPerRepositoryCheck.perRepoLoop] using hacc
  | cons repo rest ih =>
    intro acc hacc
    rw [ImagesPerRepositoryCheck.perRepoLoop]
    rcases hrun : runPages countStep (images repo).pages (images repo).err 0 with ⟨n, e⟩
    rcases e with _ | e
    · simp only
      refine ih _ ?_
      intro u hu
      rcases List.mem_append.mp hu with h | h
      · exact hacc u h
      · simp at h
        simp [h]
    · simp

/-- **C3** (amended): every registry-dispatched strategy modelled here
returns records with `Quota` at its zero value (the Aggregator then
overwrites it with the catalog value); among the no-formal-quota
strategies, the SES send-quota and subnet-availability strategies set
`Quota` themselves. -/
theorem registry_strategies_leave_quota_zero :
    (∀ src : Paged (List String),
      ∀ u ∈ (RepositoriesPerRegionCheck.Usage src).1, u.quota = 0) ∧
    (∀ env : EcrEnv,
      ∀ u ∈ (ImagesPerRepositoryCheck.Usage env).1, u.quota = 0) ∧
    (∀ src : Paged (List String),
      ∀ u ∈ (LogGroupsPerRegionCheck.Usage src).1, u.quota = 0) ∧
    (∀ src : Paged (List GlueJob),
      ∀ u ∈ (ConcurrentRunsPerJobCheck.Usage src).1, u.quota = 0) ∧
    (∀ (env : GlueRunsEnv) (qs : List QuotaUsage) (e : Option SQErr),
      ConcurrentRunsCheck.Usage env = GoOutcome.ret (qs, e) →
      ∀ u ∈ qs, u.quota = 0) := by
  refine ⟨?_, ?_, ?_, ?_, ?_⟩
  · intro src
    unfold RepositoriesPerRegionCheck.Usage
    rcases hrun : runPages RepositoriesPerRegionCheck.pageStep src.pages src.err (0, [])
      with ⟨⟨n, acc⟩, e⟩
    have hinv := runPages_invariant (f := RepositoriesPerRegionCheck.pageStep)
      (fun st => ∀ u ∈ st.2, u.quota = 0) ?hf src.pages src.err (0, []) (by simp)
    case hf =>
      intro p l s hs
      unfold RepositoriesPerRegionCheck.pageStep
      intro u hu
      rcases List.mem_append.mp hu with h | h
      · exact hs u h
      · simp at h
        simp [h]
    rw [hrun] at hinv
    rcases e with _ | e
    · simpa using hinv
    · simp
  · intro env
    unfold ImagesPerRepositoryCheck.Usage
    rcases hrun : runPages collectStep env.repositories.pages env.repositories.err []
      with ⟨repos, e⟩
    rcases e with _ | e
    · simp only
      exact imagesPerRepo_loop_quota_zero env.images repos [] (by simp)
    · simp
  · intro src
    unfold LogGroupsPerRegionCheck.Usage
    rcases hrun : runPages countStep src.pages src.err 0 with ⟨n, e⟩
    rcases e with _ | e
    · simp
    · simp
  · intro src
    unfold ConcurrentRunsPerJobCheck.Usage
    rcases hrun : runPages ConcurrentRunsPerJobCheck.pageStep src.pages src.err []
      with ⟨acc, e⟩
    have hinv := runPages_invariant (f := ConcurrentRunsPerJobCheck.pageStep)
      (fun st => ∀ u ∈ st, u.quota = 0) ?hf2 src.pages src.err [] (by simp)
    case hf2 =>
      intro p l s hs
      unfold ConcurrentRunsPerJobCheck.pageStep
      intro u hu
      rcases List.mem_append.mp hu with h | h
      · exact hs u h
      · obtain ⟨job, _, rfl⟩ := List.mem_map.mp h
        rfl
    rw [hrun] at hinv
    rcases e with _ | e
    · simpa using hinv
    · simp
  · intro env qs e hret
    unfold ConcurrentRunsCheck.Usage at hret
    rcases houter : ConcurrentRunsCheck.outerLoop env env.jobPages.pages env.jobPages.err (0, 0)
      with ⟨⟨⟨k, count⟩, le⟩⟩ | pe
    · rw [houter] at hret
      rcases le with _ | le
      · simp only at hret
        rcases hret
        intro u hu
        simp at hu
        simp [hu]
      · simp only at hret
        rcases hret
        intro u hu
        simp at hu
    · rw [houter] at hret
      cases hret

/-- Witness for the amended C3 at a concrete repository listing. -/
theorem registry_strategies_leave_quota_zero_witness :
    (⟨repositoriesPerRegionName, none, repositoriesPerRegionDescription,
      1, 0, []⟩ : QuotaUsage).quota = 0 :=
  registry_strategies_leave_quota_zero.1 ⟨[["repo-a"]], none⟩ _ (by decide)

/-! ## C4: pagination of the scalar-total checks -/

/-- **C4**: splitting two repositories across two pages makes
`RepositoriesPerRegionCheck.Usage` return TWO records (with the partial
counts 1 and 2), not a single total record, because the record append sits
inside the page callback; the log-groups check, by contrast, returns the
same single-record total whether the two groups arrive on one page or
two. -/
theorem repositoriesPerRegion_record_per_page :
    RepositoriesPerRegionCheck.Usage ⟨[["repo-a"], ["repo-b"]], none⟩ =
      ([⟨repositoriesPerRegionName, none, repositoriesPerRegionDescription, 1, 0, []⟩,
        ⟨repositoriesPerRegionName, none, repositoriesPerRegionDescription, 2, 0, []⟩],
       none) ∧
    LogGroupsPerRegionCheck.Usage ⟨[["grp-a", "grp-b"]], none⟩ =
      LogGroupsPerRegionCheck.Usage ⟨[["grp-a"], ["grp-b"]], none⟩ ∧
    (LogGroupsPerRegionCheck.Usage ⟨[["grp-a"], ["grp-b"]], none⟩).1 =
      [⟨logGroupsPerRegionName, none, logGroupsPerRegionDescription, 2, 0, []⟩] := by
  decide

/-! ## C5: composite (two-pass) strategies abort on per-parent failure -/

/-- The collecting page callback gathers exactly the concatenation of the
delivered pages and passes the transport error through. -/
theorem runPages_collectStep {β : Type} :
    ∀ (pages : List (List β)) (e : Option ApiErr) (acc : List β),
      runPages collectStep pages e acc = (acc ++ pages.flatten, e) := by
  intro pages
  induction pages with
  | nil => intro e acc; simp [runPages]
  | cons p rest ih =>
    intro e acc
    rw [runPages]
    rcases hrest : rest.isEmpty with _ | _
    · simp only [hrest, Bool.false_and, collectStep]
      rw [ih e (acc ++ p)]
      simp
    · have : rest = [] := by
        cases rest with
        | nil => rfl
        | cons a b => simp at hrest
      subst this
      rcases e with _ | e
      · simp [collectStep]
      · simp only [collectStep, Bool.and_false]
        rw [ih (some e) (acc ++ p)]
        simp

/-- The counting page callback passes the transport error through. -/
theorem runPages_countStep_err {β : Type} (pages : List (List β)) (e : Option ApiErr) (n : ℕ) :
    (runPages countStep pages e n).2 = e :=
  runPages_err (fun p l s h => by
    unfold countStep at h
    simpa using h) pages e n

/-- If an enumerated repository's image listing fails, the per-repository
pass of the ECR images check reports an error. -/
theorem imagesPerRepo_loop_err (images : String → Paged (List String)) (repo : String)
    (hfail : (images repo).err ≠ none) :
    ∀ (repos : List String) (acc : List QuotaUsage), repo ∈ repos →
      (ImagesPerRepositoryCheck.perRepoLoop images repos acc).2 ≠ none := by
  intro repos
  induction repos with
  | nil => intro acc h; simp at h
  | cons r rest ih =>
    intro acc hmem
    rw [ImagesPerRepositoryCheck.perRepoLoop]
    rcases hrun : runPages countStep (images r).pages (images r).err 0 with ⟨n, e⟩
    have he : e = (images r).err := by
      have := runPages_countStep_err (images r).pages (images r).err 0
      rw [hrun] at this
      exact this
    rcases e with _ | e
    · simp only
      rcases List.mem_cons.mp hmem with rfl | h2
      · exact absurd he.symm hfail
      · exact ih _ h2
    · simp

/-- The per-repository pass never pairs records with an error. -/
theorem imagesPerRepo_loop_err_nil (images : String → Paged (List String)) :
    ∀ (repos : List String) (acc : List QuotaUsage),
      (ImagesPerRepositoryCheck.perRepoLoop images repos acc).2 ≠ none →
      (ImagesPerRepositoryCheck.perRepoLoop images repos acc).1 = [] := by
  intro repos
  induction repos with
  | nil => intro acc h; simp [ImagesPerRepositoryCheck.perRepoLoop] at h
  | cons r rest ih =>
    intro acc h
    rw [ImagesPerRepositoryCheck.perRepoLoop] at h ⊢
    rcases hrun : runPages countStep (images r).pages (images r).err 0 with ⟨n, e⟩
    rw [hrun] at h
    rcases e with _ | e
    · simp only at h ⊢
      exact ih _ h
    · simp

/-- The inner run-counting callback passes the transport error through. -/
theorem runPages_runsStep_err (alloc : ℕ → ℕ) (pages : List (List JobRun))
    (e : Option ApiErr) (st : ℕ × ℕ) :
    (runPages (ConcurrentRunsCheck.runsStep alloc) pages e st).2 = e :=
  runPages_err (fun p l s h => by
    unfold ConcurrentRunsCheck.runsStep at h
    simpa using h) pages e st

/-- If some job in the list has a failing run listing, the per-job loop of
the concurrent-runs check panics. -/
theorem concurrentRuns_jobsLoop_panics (env : GlueRunsEnv) (job : String)
    (hfail : (env.jobRuns job).err ≠ none) :
    ∀ (jobs : List String) (st : ℕ × ℕ), job ∈ jobs →
      ∃ pe, ConcurrentRunsCheck.jobsLoop env jobs st = GoOutcome.panicked pe := by
  intro jobs
  induction jobs with
  | nil => intro st h; simp at h
  | cons j rest ih =>
    intro st hmem
    rw [ConcurrentRunsCheck.jobsLoop]
    rcases hrun : runPages (ConcurrentRunsCheck.runsStep env.alloc)
      (env.jobRuns j).pages (env.jobRuns j).err st with ⟨st2, e⟩
    have he : e = (env.jobRuns j).err := by
      have := runPages_runsStep_err env.alloc (env.jobRuns j).pages (env.jobRuns j).err st
      rw [hrun] at this
      exact this
    rcases e with _ | e
    · simp only
      rcases List.mem_cons.mp hmem with rfl | h2
      · exact absurd he.symm hfail
      · exact ih st2 h2
    · exact ⟨e, rfl⟩

/-- If some enumerated job has a failing run listing, the whole outer walk
of the concurrent-runs check panics. -/
theorem concurrentRuns_outerLoop_panics (env : GlueRunsEnv) (job : String)
    (hfail : (env.jobRuns job).err ≠ none) :
    ∀ (pages : List (List String)) (e : Option ApiErr) (st : ℕ × ℕ),
      job ∈ pages.flatten →
      ∃ pe, ConcurrentRunsCheck.outerLoop env pages e st = GoOutcome.panicked pe := by
  intro pages
  induction pages with
  | nil => intro e st h; simp at h
  | cons page rest ih =>
    intro e st hmem
    rw [ConcurrentRunsCheck.outerLoop]
    rcases hjl : ConcurrentRunsCheck.jobsLoop env page st with st2 | pe
    · simp only
      rw [List.flatten_cons] at hmem
      rcases List.mem_append.mp hmem with hin | hin
      · obtain ⟨pe, hpe⟩ := concurrentRuns_jobsLoop_panics env job hfail page st hin
        rw [hpe] at hjl
        cases hjl
      · have hrest : rest ≠ [] := by
          intro hr
          rw [hr] at hin
          simp at hin
        have : rest.isEmpty = false := by
          cases rest with
          | nil => exact absurd rfl hrest
          | cons a b => rfl
        rw [this]
        simp only [Bool.false_and, Bool.false_eq_true, if_false]
        exact ih e st2 hin
    · exact ⟨pe, rfl⟩

/-- **C5** (amended): a per-parent failure aborts a composite strategy
without partial results, but in two different ways: the ECR
images-per-repository check returns `nil` records and a non-nil error,
while the Glue concurrent-runs check PANICS on an inner `GetJobRuns`
failure instead of returning an error. -/
theorem composite_strategy_failure_aborts :
    (∀ env : EcrEnv,
      (ImagesPerRepositoryCheck.Usage env).2 ≠ none →
      (ImagesPerRepositoryCheck.Usage env).1 = []) ∧
    (∀ env : EcrEnv, ∀ repo ∈ env.repositories.pages.flatten,
      env.repositories.err = none →
      (env.images repo).err ≠ none →
      (ImagesPerRepositoryCheck.Usage env).1 = [] ∧
      (ImagesPerRepositoryCheck.Usage env).2 ≠ none) ∧
    (∀ env : GlueRunsEnv, ∀ job ∈ env.jobPages.pages.flatten,
      (env.jobRuns job).err ≠ none →
      ∃ pe, ConcurrentRunsCheck.Usage env = GoOutcome.panicked pe) := by
  have husage : ∀ env : EcrEnv,
      (ImagesPerRepositoryCheck.Usage env).2 ≠ none →
      (ImagesPerRepositoryCheck.Usage env).1 = [] := by
    intro env h
    unfold ImagesPerRepositoryCheck.Usage at h ⊢
    rcases hrun : runPages collectStep env.repositories.pages env.repositories.err []
      with ⟨repos, e⟩
    rw [hrun] at h
    rcases e with _ | e
    · simp only at h ⊢
      exact imagesPerRepo_loop_err_nil env.images repos [] h
    · simp
  refine ⟨husage, ?_, ?_⟩
  · intro env repo hrepo herr hfail
    have hcol := runPages_collectStep env.repositories.pages env.repositories.err []
    have h2 : (ImagesPerRepositoryCheck.Usage env).2 ≠ none := by
      unfold ImagesPerRepositoryCheck.Usage
      rw [hcol, herr]
      simp only [List.nil_append]
      exact imagesPerRepo_loop_err env.images repo hfail env.repositories.pages.flatten [] hrepo
    exact ⟨husage env h2, h2⟩
  · intro env job hjob hfail
    obtain ⟨pe, hpe⟩ := concurrentRuns_outerLoop_panics env job hfail
      env.jobPages.pages env.jobPages.err (0, 0) hjob
    refine ⟨pe, ?_⟩
    unfold ConcurrentRunsCheck.Usage
    rw [hpe]

/-- A concurrent-runs environment with one job whose `GetJobRuns` listing
fails. -/
def glueFailEnv : GlueRunsEnv :=
  { jobPages := ⟨[["job-a"]], none⟩
    jobRuns := fun _ => ⟨[], some "getjobruns boom"⟩
    alloc := fun n => 1000 + n }

/-- **C5** (counterexample): an inner `GetJobRuns` failure in
`ConcurrentRunsCheck.Usage` is NOT surfaced as a returned error: the
function panics and never returns at all. -/
theorem concurrentRuns_inner_failure_panics :
    ConcurrentRunsCheck.Usage glueFailEnv = GoOutcome.panicked "getjobruns boom" ∧
    ¬ ∃ r : List QuotaUsage × Option SQErr,
        ConcurrentRunsCheck.Usage glueFailEnv = GoOutcome.ret r := by
  have h : ConcurrentRunsCheck.Usage glueFailEnv =
      GoOutcome.panicked "getjobruns boom" := by decide
  refine ⟨h, ?_⟩
  rintro ⟨r, hr⟩
  rw [h] at hr
  exact GoOutcome.noConfusion hr

/-- An ECR environment with one repository whose `ListImages` listing
fails. -/
def ecrFailEnv : EcrEnv :=
  { repositories := ⟨[["repo-a"]], none⟩
    images := fun _ => ⟨[], some "listimages boom"⟩ }

/-- Witness for the amended C5 at concrete failing environments. -/
theorem composite_strategy_failure_aborts_witness :
    ((ImagesPerRepositoryCheck.Usage ecrFailEnv).1 = [] ∧
     (ImagesPerRepositoryCheck.Usage ecrFailEnv).2 ≠ none) ∧
    (∃ pe, ConcurrentRunsCheck.Usage glueFailEnv = GoOutcome.panicked pe) :=
  ⟨composite_strategy_failure_aborts.2.1 ecrFailEnv "repo-a" (by decide) (by decide) (by decide),
   composite_strategy_failure_aborts.2.2 glueFailEnv "job-a" (by decide) (by decide)⟩

/-! ## C6: which CIDR strings produce the conversion error -/

/-- Modelled from the spec's wording "prefixLength parsed from the CIDR
suffix": the characters after the LAST slash of the CIDR string.  This is
the claim's notion of the suffix, defined only to compare it against what
the code actually slices (`lastTwoChars`). -/
def cidrSuffixAfterSlash (s : String) : String :=
  String.mk (s.data.reverse.takeWhile (fun c => c ≠ '/')).reverse

/-- The per-subnet loop errors iff some subnet's last-two-character slice
fails `strconv.Atoi`. -/
theorem subnetPageLoop_err_iff :
    ∀ (subnets : List Subnet) (acc : List QuotaUsage),
      ((subnetPageLoop subnets acc).2 ≠ none ↔
        ∃ sn ∈ subnets, atoi (lastTwoChars sn.cidrBlock) = none) := by
  intro subnets
  induction subnets with
  | nil => intro acc; simp [subnetPageLoop]
  | cons sn rest ih =>
    intro acc
    rw [subnetPageLoop]
    rcases ha : atoi (lastTwoChars sn.cidrBlock) with _ | bits
    · simp only
      constructor
      · intro _
        exact ⟨sn, by simp, ha⟩
      · intro _
        simp
    · simp only
      rw [ih]
      constructor
      · rintro ⟨s2, hs2, hbad⟩
        exact ⟨s2, by simp [hs2], hbad⟩
      · rintro ⟨s2, hs2, hbad⟩
        rcases List.mem_cons.mp hs2 with rfl | h2
        · rw [ha] at hbad
          cases hbad
        · exact ⟨s2, h2, hbad⟩

/-- Any error the per-subnet loop leaves is a `failedToConvertCidr`. -/
theorem subnetPageLoop_form :
    ∀ (subnets : List Subnet) (acc : List QuotaUsage) (e : SQErr),
      (subnetPageLoop subnets acc).2 = some e →
      ∃ s, e = SQErr.failedToConvertCidr s := by
  intro subnets
  induction subnets with
  | nil => intro acc e h; simp [subnetPageLoop] at h
  | cons sn rest ih =>
    intro acc e h
    rw [subnetPageLoop] at h
    rcases ha : atoi (lastTwoChars sn.cidrBlock) with _ | bits
    · rw [ha] at h
      simp only at h
      exact ⟨lastTwoChars sn.cidrBlock, by simpa using h.symm⟩
    · rw [ha] at h
      simp only at h
      exact ih _ e h

/-- **C6** (amended): assuming the subnet enumeration itself succeeds (and
every CIDR string has at least two characters, the domain on which the Go
slice expression is defined), `AvailableIpsPerSubnetUsageCheck.Usage`
returns the failed-to-convert-CIDR error iff some enumerated subnet's LAST
TWO CHARACTERS do not parse as an integer — the code slices
`cidrBlock[len-2:]` rather than the suffix after the slash, so a
single-digit prefix length such as "/8" DOES produce the conversion
error. -/
theorem availableIps_conversion_error_iff (src : Paged (List Subnet))
    (herr : src.err = none)
    (_hlen : ∀ sn ∈ src.pages.flatten, 2 ≤ sn.cidrBlock.length) :
    ((∃ e, (AvailableIpsPerSubnetUsageCheck.Usage src).2 =
        some (SQErr.failedToConvertCidr e)) ↔
      ∃ sn ∈ src.pages.flatten, atoi (lastTwoChars sn.cidrBlock) = none) := by
  unfold AvailableIpsPerSubnetUsageCheck.Usage AvailableIpsPerSubnetUsageCheck.pageStep
  rcases hR : runPages (pageCallback subnetPageLoop) src.pages src.err ([], none)
    with ⟨⟨acc, u⟩, le⟩
  have hle : le = src.err := by
    have := runPages_err (f := pageCallback subnetPageLoop)
      (pageCallback_cont subnetPageLoop) src.pages src.err ([], none)
    rw [hR] at this
    exact this
  have hu := runPages_pageCallback_err_iff subnetPageLoop _
    subnetPageLoop_err_iff src.pages src.err [] none
  rw [hR] at hu
  simp only at hu
  have hform : ∀ e : SQErr, u = some e → ∃ s, e = SQErr.failedToConvertCidr s := by
    have := runPages_invariant (f := pageCallback subnetPageLoop)
      (fun st => ∀ e : SQErr, st.2 = some e → ∃ s, e = SQErr.failedToConvertCidr s)
      ?hf src.pages src.err ([], none) (by simp)
    case hf =>
      intro p l s hs
      unfold pageCallback
      rcases hb : subnetPageLoop p s.1 with ⟨acc2, eo⟩
      rcases eo with _ | e2
      · simpa using hs
      · simp only
        intro e he
        rcases he
        exact subnetPageLoop_form p s.1 e2 (by rw [hb])
    rw [hR] at this
    exact this
  rw [hle.trans herr]
  rcases u with _ | ue
  · simp only [Option.some.injEq]
    constructor
    · rintro ⟨e, he⟩
      cases he
    · intro hbad
      have : ∃ p ∈ src.pages, ∃ sn ∈ p, atoi (lastTwoChars sn.cidrBlock) = none := by
        obtain ⟨sn, hsn, hb⟩ := hbad
        obtain ⟨p, hp, hsnp⟩ := List.mem_flatten.mp hsn
        exact ⟨p, hp, sn, hsnp, hb⟩
      exact absurd (hu.mpr (Or.inr this)) (by simp)
  · obtain ⟨s, rfl⟩ := hform ue rfl
    simp only [Option.some.injEq, SQErr.failedToConvertCidr.injEq]
    constructor
    · intro _
      have := hu.mp (by simp)
      rcases this with h | ⟨p, hp, sn, hsn, hb⟩
      · simp at h
      · exact ⟨sn, List.mem_flatten.mpr ⟨p, hp, hsn⟩, hb⟩
    · intro _
      exact ⟨s, rfl⟩

/-- A subnet whose CIDR prefix length is the single digit 8: the suffix
after the slash is the valid integer 8, but the last two characters are
the string "/8". -/
def slash8Subnet : Subnet :=
  { cidrBlock := "10.0.0.0/8"
    availableIpAddressCount := 100
    subnetId := some "subnet-a" }

/-- **C6** (counterexample): for a subnet whose CIDR suffix after the
slash is the valid integer 8, the check still returns the
failed-to-convert-CIDR error, because the code parses the last TWO
characters ("/8"). -/
theorem availableIps_slash8_conversion_error :
    AvailableIpsPerSubnetUsageCheck.Usage ⟨[[slash8Subnet]], none⟩ =
      ([], some (SQErr.failedToConvertCidr "/8")) ∧
    cidrSuffixAfterSlash slash8Subnet.cidrBlock = "8" ∧
    atoi (cidrSuffixAfterSlash slash8Subnet.cidrBlock) = some 8 ∧
    lastTwoChars slash8Subnet.cidrBlock = "/8" ∧
    atoi (lastTwoChars slash8Subnet.cidrBlock) = none := by decide

/-- Witness for the amended C6 at a concrete malformed CIDR. -/
theorem availableIps_conversion_error_iff_witness :
    ∃ e, (AvailableIpsPerSubnetUsageCheck.Usage
        ⟨[[⟨"bad-cidr-xy", 5, none, []⟩]], none⟩).2 =
      some (SQErr.failedToConvertCidr e) :=
  (availableIps_conversion_error_iff ⟨[[⟨"bad-cidr-xy", 5, none, []⟩]], none⟩
    (by decide) (by decide)).mpr (by decide)

/-! ## C7: catalog-and-registry codes appear in the result -/

/-- **C7** (amended): whenever a refresh succeeds outside the China
partition, every record a registered service-specific strategy returned
for a quota code enumerated in the catalog appears in the aggregate
result, carrying the strategy's record `Name` and the catalog-reported
`Quota`; the result therefore contains at least one such record PROVIDED
the strategy returned at least one record (a per-resource fan-out over
zero resources contributes none). -/
theorem aggregator_contains_catalog_records (env : SQEnv)
    (hch : env.isAwsChina = false)
    (hok : (QuotasAndUsage env).2 = none)
    (svc : String) (hsvc : svc ∈ allServices)
    (p : List CatQuota) (hp : p ∈ (env.serviceQuotaPages svc).pages)
    (q : CatQuota) (hq : q ∈ p)
    (us : List QuotaUsage) (hreg : env.serviceChecks q.code = some (us, none))
    (u : QuotaUsage) (hu : u ∈ us) :
    ∃ rec ∈ (QuotasAndUsage env).1, rec.name = u.name ∧ rec.quota = q.value := by
  rcases hA : walkServices (quotasForService env.serviceChecks env.serviceQuotaPages)
    allServices with ⟨qs1, e1⟩
  rcases hB : walkServices (defaultsForService env.defaultChecks env.defaultQuotaPages)
    allServices with ⟨qs2, e2⟩
  rcases hC : walkOtherChecks env.otherChecks with ⟨qs3, e3⟩
  rw [QuotasAndUsage, hch] at hok ⊢
  simp only [Bool.false_eq_true, if_false] at hok ⊢
  rw [hA] at hok ⊢
  rcases e1 with _ | e1
  · simp only at hok ⊢
    rw [hB] at hok ⊢
    rcases e2 with _ | e2
    · simp only at hok ⊢
      rw [hC] at hok ⊢
      rcases e3 with _ | e3
      · simp only at hok ⊢
        -- every per-service walk succeeded
        have hsvcok : (quotasForService env.serviceChecks env.serviceQuotaPages svc).2 = none := by
          have hAiff := walkServices_err_iff
            (quotasForService env.serviceChecks env.serviceQuotaPages) allServices
          rw [hA] at hAiff
          simp only at hAiff
          rcases hfs : (quotasForService env.serviceChecks env.serviceQuotaPages svc).2
            with _ | fe
          · rfl
          · exact absurd (hAiff.mpr ⟨svc, hsvc, by rw [hfs]; simp⟩) (by simp)
        have hx : { u with quota := q.value } ∈
            (quotasForService env.serviceChecks env.serviceQuotaPages svc).1 :=
          catalogWalk_mem env.serviceChecks (env.serviceQuotaPages svc) p q us u
            hp hq hreg hu hsvcok
        have hin : { u with quota := q.value } ∈ qs1 := by
          have := walkServices_mem
            (quotasForService env.serviceChecks env.serviceQuotaPages) svc
            { u with quota := q.value } allServices hsvc (by rw [hA]) hx
          rw [hA] at this
          exact this
        exact ⟨{ u with quota := q.value }, by simp [hin], rfl, rfl⟩
      · simp at hok
    · simp at hok
  · simp at hok

/-- A healthy refresh whose glue catalog advertises the concurrent-runs-
per-job quota code, registered to a strategy that finds zero glue jobs
and so returns zero records. -/
def emptyFanoutEnv : SQEnv :=
  { isAwsChina := false
    serviceQuotaPages := fun svc =>
      if svc = "glue" then ⟨[[⟨"L-F574AED9", 1000⟩]], none⟩ else ⟨[], none⟩
    defaultQuotaPages := fun _ => ⟨[], none⟩
    serviceChecks := fun code =>
      if code = "L-F574AED9" then some (ConcurrentRunsPerJobCheck.Usage ⟨[[]], none⟩)
      else none
    defaultChecks := fun _ => none
    otherChecks := [] }

/-- **C7** (counterexample): the quota code L-F574AED9 is present in both
the enumerated catalog and the service-specific registry, the refresh
succeeds, yet the result contains NO record named after the registered
strategy, because the fan-out strategy returned zero records. -/
theorem aggregator_empty_fanout_no_record :
    (∃ p ∈ (emptyFanoutEnv.serviceQuotaPages "glue").pages, ∃ q ∈ p,
      q.code = "L-F574AED9") ∧
    emptyFanoutEnv.serviceChecks "L-F574AED9" =
      some (ConcurrentRunsPerJobCheck.Usage ⟨[[]], none⟩) ∧
    (QuotasAndUsage emptyFanoutEnv).2 = none ∧
    (QuotasAndUsage emptyFanoutEnv).1 = [] ∧
    ¬ ∃ u ∈ (QuotasAndUsage emptyFanoutEnv).1,
        u.name = concurrentRunsPerJobName := by decide

/-- A healthy refresh whose ecr catalog advertises the repositories-per-
region quota code, registered to a strategy returning one record. -/
def oneRecordEnv : SQEnv :=
  { isAwsChina := false
    serviceQuotaPages := fun svc =>
      if svc = "ecr" then ⟨[[⟨"L-CFEB8E8D", 10000⟩]], none⟩ else ⟨[], none⟩
    defaultQuotaPages := fun _ => ⟨[], none⟩
    serviceChecks := fun code =>
      if code = "L-CFEB8E8D" then some (RepositoriesPerRegionCheck.Usage ⟨[["repo-a"]], none⟩)
      else none
    defaultChecks := fun _ => none
    otherChecks := [] }

/-- Witness for the amended C7 at a concrete one-record refresh. -/
theorem aggregator_contains_catalog_records_witness :
    ∃ rec ∈ (QuotasAndUsage oneRecordEnv).1,
      rec.name = repositoriesPerRegionName ∧ rec.quota = 10000 :=
  aggregator_contains_catalog_records oneRecordEnv (by decide) (by decide)
    "ecr" (by decide) [⟨"L-CFEB8E8D", 10000⟩] (by decide) ⟨"L-CFEB8E8D", 10000⟩ (by decide)
    [⟨repositoriesPerRegionName, none, repositoriesPerRegionDescription, 1, 0, []⟩]
    (by decide)
    ⟨repositoriesPerRegionName, none, repositoriesPerRegionDescription, 1, 0, []⟩
    (by decide)

/-! ## C8: idempotence of the metric-name normalization -/

/-- A character the full pipeline can output: ASCII lower, digit, or
underscore. -/
def normChar (c : Char) : Bool :=
  c.isLower || c.isDigit || c = '_'

theorem isUpper_toNat {c : Char} (h : c.isUpper = true) :
    65 ≤ c.toNat ∧ c.toNat ≤ 90 := by
  simp only [Char.isUpper, Bool.and_eq_true, decide_eq_true_eq] at h
  exact ⟨h.1, h.2⟩

theorem isLower_toNat {c : Char} (h : c.isLower = true) :
    97 ≤ c.toNat ∧ c.toNat ≤ 122 := by
  simp only [Char.isLower, Bool.and_eq_true, decide_eq_true_eq] at h
  exact ⟨h.1, h.2⟩

theorem isDigit_toNat {c : Char} (h : c.isDigit = true) :
    48 ≤ c.toNat ∧ c.toNat ≤ 57 := by
  simp only [Char.isDigit, Bool.and_eq_true, decide_eq_true_eq] at h
  exact ⟨h.1, h.2⟩

theorem not_upper_of_normChar {c : Char} (h : normChar c = true) :
    c.isUpper = false := by
  rcases hu : c.isUpper with _ | _
  · rfl
  · exfalso
    obtain ⟨h1, h2⟩ := isUpper_toNat hu
    simp only [normChar, Bool.or_eq_true, decide_eq_true_eq] at h
    rcases h with (hl | hd) | he
    · obtain ⟨g1, g2⟩ := isLower_toNat hl
      omega
    · obtain ⟨g1, g2⟩ := isDigit_toNat hd
      omega
    · rw [he] at hu
      revert hu
      decide

theorem not_upper_toNat {c : Char} (h : c.isUpper = false) :
    ¬(65 ≤ c.toNat ∧ c.toNat ≤ 90) := by
  simp only [Char.isUpper, Bool.and_eq_false_iff] at h
  rintro ⟨h1, h2⟩
  rcases h with h | h
  · exact absurd (show (65 : UInt32) ≤ c.val from h1) (by simpa using h)
  · exact absurd (show c.val ≤ (90 : UInt32) from h2) (by simpa using h)

theorem toLower_of_not_upper {c : Char} (h : c.isUpper = false) : c.toLower = c := by
  have hn := not_upper_toNat h
  simp only [Char.toLower]
  rw [if_neg (by simpa using hn)]

theorem toLower_of_normChar {c : Char} (h : normChar c = true) : c.toLower = c :=
  toLower_of_not_upper (not_upper_of_normChar h)

theorem isLower_toLower_of_upper {c : Char} (h : c.isUpper = true) :
    (c.toLower).isLower = true := by
  obtain ⟨h1, h2⟩ := isUpper_toNat h
  simp only [Char.toLower]
  rw [if_pos (by exact ⟨h1, h2⟩)]
  have hv : (c.toNat + 32).isValidChar := Or.inl (by omega)
  have ht : (Char.ofNat (c.toNat + 32)).toNat = c.toNat + 32 := by
    simp [Char.ofNat, hv]
    rfl
  simp only [Char.isLower, Bool.and_eq_true, decide_eq_true_eq]
  constructor
  · show (97 : ℕ) ≤ (Char.ofNat (c.toNat + 32)).toNat
    omega
  · show (Char.ofNat (c.toNat + 32)).toNat ≤ 122
    omega

theorem normChar_toLower_of_valid {c : Char} (h : isValidLabelChar c = true) :
    normChar (c.toLower) = true := by
  simp only [isValidLabelChar, Bool.or_eq_true, decide_eq_true_eq] at h
  rcases h with ((hu | hl) | hd) | he
  · simp [normChar, isLower_toLower_of_upper hu]
  · have hnu : c.isUpper = false := not_upper_of_normChar (by simp [normChar, hl])
    rw [toLower_of_not_upper hnu]
    simp [normChar, hl]
  · have hnu : c.isUpper = false := not_upper_of_normChar (by simp [normChar, hd])
    rw [toLower_of_not_upper hnu]
    simp [normChar, hd]
  · rw [he]
    decide

theorem valid_of_normChar {c : Char} (h : normChar c = true) :
    isValidLabelChar c = true := by
  simp only [normChar, Bool.or_eq_true, decide_eq_true_eq] at h
  simp only [isValidLabelChar, Bool.or_eq_true, decide_eq_true_eq]
  rcases h with (hl | hd) | he
  · exact Or.inl (Or.inl (Or.inr hl))
  · exact Or.inl (Or.inr hd)
  · exact Or.inr he

theorem replaceInvalidLabelChar_valid (c : Char) :
    isValidLabelChar (replaceInvalidLabelChar c) = true := by
  unfold replaceInvalidLabelChar
  rcases hc : isValidLabelChar c with _ | _
  · simp only [Bool.false_eq_true, if_false]
    decide
  · simpa using hc

theorem replaceInvalidLabelChar_of_valid {c : Char} (h : isValidLabelChar c = true) :
    replaceInvalidLabelChar c = c := by
  unfold replaceInvalidLabelChar
  rw [h]
  rfl

/-- Every character the snake-case insertion emits is a character of the
input or an underscore. -/
theorem insertCapUnderscores_mem (l : List Char) :
    ∀ c ∈ insertCapUnderscores l, c ∈ l ∨ c = '_' := by
  induction l using insertCapUnderscores.induct with
  | case1 => simp [insertCapUnderscores]
  | case2 c => simp [insertCapUnderscores]
  | case3 a b rest hcond ih =>
    intro c hc
    rw [insertCapUnderscores, if_pos hcond] at hc
    simp only [List.mem_cons] at hc
    rcases hc with rfl | rfl | rfl | hc
    · exact Or.inl (by simp)
    · exact Or.inr rfl
    · exact Or.inl (by simp)
    · rcases ih c hc with h | h
      · exact Or.inl (by simp [h])
      · exact Or.inr h
  | case4 a b rest hcond ih =>
    intro c hc
    rw [insertCapUnderscores, if_neg hcond] at hc
    simp only [List.mem_cons] at hc
    rcases hc with rfl | hc
    · exact Or.inl (by simp)
    · rcases ih c hc with h | h
      · exact Or.inl (by simp [List.mem_cons.mp h])
      · exact Or.inr h

/-- On a string without upper-case characters the snake-case insertion is
the identity. -/
theorem insertCapUnderscores_id (l : List Char) (h : ∀ c ∈ l, c.isUpper = false) :
    insertCapUnderscores l = l := by
  induction l using insertCapUnderscores.induct with
  | case1 => rfl
  | case2 c => rfl
  | case3 a b rest hcond ih =>
    exfalso
    have hb : b.isUpper = false := h b (by simp)
    rw [hb] at hcond
    simp at hcond
  | case4 a b rest hcond ih =>
    rw [insertCapUnderscores, if_neg hcond]
    rw [ih (fun c hc => h c (List.mem_cons_of_mem a hc))]

/-- Every character of a normalized metric name is an ASCII lower-case
letter, a digit, or an underscore. -/
theorem toPrometheusNamingFormat_chars (s : String) :
    ∀ c ∈ (ToPrometheusNamingFormat s).data, normChar c = true := by
  intro c hc
  unfold ToPrometheusNamingFormat toSnakeCase at hc
  simp only [List.mem_map] at hc
  obtain ⟨c2, hc2, rfl⟩ := hc
  rcases insertCapUnderscores_mem _ c2 hc2 with h | rfl
  · simp only [List.mem_map] at h
    obtain ⟨c3, _, rfl⟩ := h
    exact normChar_toLower_of_valid (replaceInvalidLabelChar_valid c3)
  · decide

/-- **C8**: `ToPrometheusNamingFormat` is idempotent, maps SecurityGroupID
to security_group_id, and leaves eth0 unchanged. -/
theorem toPrometheusNamingFormat_spec :
    (∀ s : String,
      ToPrometheusNamingFormat (ToPrometheusNamingFormat s) = ToPrometheusNamingFormat s) ∧
    ToPrometheusNamingFormat "SecurityGroupID" = "security_group_id" ∧
    ToPrometheusNamingFormat "eth0" = "eth0" := by
  refine ⟨?_, by decide, by decide⟩
  intro s
  have hnorm := toPrometheusNamingFormat_chars s
  have h1 : (ToPrometheusNamingFormat s).data.map replaceInvalidLabelChar =
      (ToPrometheusNamingFormat s).data := by
    conv_rhs => rw [← List.map_id (ToPrometheusNamingFormat s).data]
    exact List.map_congr_left fun a ha =>
      replaceInvalidLabelChar_of_valid (valid_of_normChar (hnorm a ha))
  have h2 : insertCapUnderscores (ToPrometheusNamingFormat s).data =
      (ToPrometheusNamingFormat s).data :=
    insertCapUnderscores_id _ fun c hc => not_upper_of_normChar (hnorm c hc)
  have h3 : (ToPrometheusNamingFormat s).data.map Char.toLower =
      (ToPrometheusNamingFormat s).data := by
    conv_rhs => rw [← List.map_id (ToPrometheusNamingFormat s).data]
    exact List.map_congr_left fun a ha => toLower_of_normChar (hnorm a ha)
  conv_lhs => rw [ToPrometheusNamingFormat]
  show toSnakeCase (String.mk ((ToPrometheusNamingFormat s).data.map replaceInvalidLabelChar)) =
    ToPrometheusNamingFormat s
  rw [h1]
  unfold toSnakeCase
  show String.mk ((insertCapUnderscores (ToPrometheusNamingFormat s).data).map Char.toLower) =
    ToPrometheusNamingFormat s
  rw [h2, h3]

/-! ## C9: the /24 subnet availability example -/

/-- **C9**: a subnet with a /24 CIDR reporting 200 available addresses
yields one record with `Usage = 2^(32-24) - 200 = 56` and `Quota = 256`. -/
theorem availableIps_slash24 (cidr : String) (sid : Option String)
    (tg : List (String × String)) (h : lastTwoChars cidr = "24") :
    AvailableIpsPerSubnetUsageCheck.Usage ⟨[[⟨cidr, 200, sid, tg⟩]], none⟩ =
      ([⟨availableIPsPerSubnetName, sid, availableIPsPerSubnetDesc, 56, 256,
         ec2TagsToQuotaUsageTags tg⟩], none) := by
  have ha : atoi (lastTwoChars cidr) = some 24 := by rw [h]; decide
  unfold AvailableIpsPerSubnetUsageCheck.Usage AvailableIpsPerSubnetUsageCheck.pageStep
  rw [runPages]
  simp only [List.isEmpty_nil, Option.isNone_none, Bool.and_self, pageCallback, subnetPageLoop, ha]
  norm_num

/-- Witness for C9 at a concrete /24 subnet. -/
theorem availableIps_slash24_witness :
    AvailableIpsPerSubnetUsageCheck.Usage
        ⟨[[⟨"10.0.0.0/24", 200, some "subnet-b", []⟩]], none⟩ =
      ([⟨availableIPsPerSubnetName, some "subnet-b", availableIPsPerSubnetDesc,
         56, 256, []⟩], none) :=
  availableIps_slash24 "10.0.0.0/24" (some "subnet-b") [] (by decide)

/-! ## C10: the running-state pointer comparison never matches -/

/-- A per-page variant of `runPages_invariant` that only requires
preservation for the pages actually in the list. -/
theorem runPages_invariant_mem {α σ : Type} {f : α → Bool → σ → σ × Bool} (P : σ → Prop) :
    ∀ (pages : List α) (e : Option ApiErr) (s : σ),
      (∀ p ∈ pages, ∀ (l : Bool) (s2 : σ), P s2 → P (f p l s2).1) →
      P s → P (runPages f pages e s).1 := by
  intro pages
  induction pages with
  | nil => intro e s _ hs; exact hs
  | cons p rest ih =>
    intro e s hf hs
    rw [runPages]
    rcases hfp : f p (rest.isEmpty && e.isNone) s with ⟨s2, cont⟩
    have hs2 : P s2 := by
      have := hf p (by simp) (rest.isEmpty && e.isNone) s hs
      rwa [hfp] at this
    cases cont with
    | true =>
      simpa using ih e s2 (fun q hq => hf q (by simp [hq])) hs2
    | false => simpa using hs2

/-- Counting runs whose state pointer equals a fresh allocation counts
nothing. -/
theorem runsFold_count (alloc : ℕ → ℕ) :
    ∀ (runs : List JobRun) (st : ℕ × ℕ),
      (∀ r ∈ runs, ∀ n : ℕ, r.jobRunState.addr ≠ alloc n) →
      (runs.foldl (fun st run =>
        (st.1 + 1, if run.jobRunState.addr = alloc st.1 then st.2 + 1 else st.2)) st).2
        = st.2 := by
  intro runs
  induction runs with
  | nil => intro st _; rfl
  | cons r rest ih =>
    intro st h
    rw [List.foldl_cons]
    rw [if_neg (h r (by simp) st.1)]
    exact ih _ (fun r2 hr2 => h r2 (by simp [hr2]))

/-- Under pointer freshness, the inner pagination of the concurrent-runs
check leaves the running count unchanged. -/
theorem runsStep_pages_count (env : GlueRunsEnv)
    (pages : List (List JobRun)) (e : Option ApiErr) (st : ℕ × ℕ)
    (hfresh : ∀ p ∈ pages, ∀ r ∈ p, ∀ n : ℕ, r.jobRunState.addr ≠ env.alloc n) :
    (runPages (ConcurrentRunsCheck.runsStep env.alloc) pages e st).1.2 = st.2 := by
  have := runPages_invariant_mem (f := ConcurrentRunsCheck.runsStep env.alloc)
    (fun s => s.2 = st.2) pages e st ?hf rfl
  · exact this
  case hf =>
    intro p hp l s2 hs2
    unfold ConcurrentRunsCheck.runsStep
    simp only
    rw [runsFold_count env.alloc p s2 (fun r hr => hfresh p hp r hr)]
    exact hs2

/-- Under pointer freshness and error-free inner listings, the per-job
loop returns with an unchanged running count. -/
theorem jobsLoop_ret_count (env : GlueRunsEnv)
    (hfresh : ∀ (j : String), ∀ p ∈ (env.jobRuns j).pages, ∀ r ∈ p, ∀ n : ℕ,
      r.jobRunState.addr ≠ env.alloc n) :
    ∀ (jobs : List String) (st : ℕ × ℕ),
      (∀ j ∈ jobs, (env.jobRuns j).err = none) →
      ∃ k, ConcurrentRunsCheck.jobsLoop env jobs st = GoOutcome.ret (k, st.2) := by
  intro jobs
  induction jobs with
  | nil => intro st _; exact ⟨st.1, rfl⟩
  | cons j rest ih =>
    intro st herr
    rw [ConcurrentRunsCheck.jobsLoop]
    rcases hrun : runPages (ConcurrentRunsCheck.runsStep env.alloc)
      (env.jobRuns j).pages (env.jobRuns j).err st with ⟨st2, e⟩
    have he : e = none := by
      have h2 := runPages_runsStep_err env.alloc (env.jobRuns j).pages (env.jobRuns j).err st
      rw [hrun] at h2
      have h3 : e = (env.jobRuns j).err := h2
      rw [h3]
      exact herr j (by simp)
    subst he
    simp only
    have hc : st2.2 = st.2 := by
      have := runsStep_pages_count env (env.jobRuns j).pages (env.jobRuns j).err st
        (fun p hp => hfresh j p hp)
      rw [hrun] at this
      exact this
    obtain ⟨k, hk⟩ := ih st2 (fun j2 hj2 => herr j2 (by simp [hj2]))
    rw [hc] at hk
    exact ⟨k, hk⟩

/-- Under pointer freshness and error-free listings, the outer walk of the
concurrent-runs check completes with an unchanged running count. -/
theorem outerLoop_ret_count (env : GlueRunsEnv)
    (hfresh : ∀ (j : String), ∀ p ∈ (env.jobRuns j).pages, ∀ r ∈ p, ∀ n : ℕ,
      r.jobRunState.addr ≠ env.alloc n) :
    ∀ (pages : List (List String)) (st : ℕ × ℕ),
      (∀ j ∈ pages.flatten, (env.jobRuns j).err = none) →
      ∃ k, ConcurrentRunsCheck.outerLoop env pages none st =
        GoOutcome.ret ((k, st.2), none) := by
  intro pages
  induction pages with
  | nil => intro st _; exact ⟨st.1, rfl⟩
  | cons page rest ih =>
    intro st herr
    rw [ConcurrentRunsCheck.outerLoop]
    obtain ⟨k1, hk1⟩ := jobsLoop_ret_count env hfresh page st
      (fun j hj => herr j (by rw [List.flatten_cons]; exact List.mem_append_left _ hj))
    rw [hk1]
    simp only
    rcases hrest : rest.isEmpty with _ | _
    · simp only [hrest, Bool.false_and, Bool.false_eq_true, if_false]
      obtain ⟨k, hk⟩ := ih (k1, st.2)
        (fun j hj => herr j (by rw [List.flatten_cons]; exact List.mem_append_right _ hj))
      exact ⟨k, hk⟩
    · have : rest = [] := by
        cases rest with
        | nil => rfl
        | cons a b => simp at hrest
      subst this
      simp only [List.isEmpty_nil, Option.isNone_none, Bool.and_self, if_true]
      exact ⟨k1, rfl⟩

/-- **C10**: whenever all its API calls succeed, `ConcurrentRunsCheck.Usage`
returns exactly one record with `Usage = 0`, regardless of the run states:
the running-state test compares the run's state pointer with a pointer
freshly allocated by `aws.String`, which is never address-equal. -/
theorem concurrentRuns_usage_always_zero (env : GlueRunsEnv)
    (houter : env.jobPages.err = none)
    (hinner : ∀ j ∈ env.jobPages.pages.flatten, (env.jobRuns j).err = none)
    (hfresh : ∀ (j : String), ∀ p ∈ (env.jobRuns j).pages, ∀ r ∈ p, ∀ n : ℕ,
      r.jobRunState.addr ≠ env.alloc n) :
    ConcurrentRunsCheck.Usage env =
      GoOutcome.ret ([⟨concurrentRunsName, none, concurrentRunsDescription, 0, 0, []⟩],
        none) := by
  unfold ConcurrentRunsCheck.Usage
  rw [houter]
  obtain ⟨k, hk⟩ := outerLoop_ret_count env hfresh env.jobPages.pages (0, 0) hinner
  rw [hk]
  simp

/-- A concurrent-runs environment with one job whose single run has state
value RUNNING (at heap address 5), while every `aws.String` allocation made
by the walk lives at address 1000. -/
def glueRunningEnv : GlueRunsEnv :=
  { jobPages := ⟨[["job-a"]], none⟩
    jobRuns := fun _ => ⟨[[⟨⟨5, "RUNNING"⟩⟩]], none⟩
    alloc := fun _ => 1000 }

/-- Witness for C10: even with a genuinely RUNNING job run, the returned
usage is 0. -/
theorem concurrentRuns_usage_always_zero_witness :
    (∃ j p r, p ∈ (glueRunningEnv.jobRuns j).pages ∧ r ∈ p ∧
      r.jobRunState.val = "RUNNING") ∧
    ConcurrentRunsCheck.Usage glueRunningEnv =
      GoOutcome.ret ([⟨concurrentRunsName, none, concurrentRunsDescription, 0, 0, []⟩],
        none) :=
  ⟨⟨"job-a", [⟨⟨5, "RUNNING"⟩⟩], ⟨⟨5, "RUNNING"⟩⟩, by decide, by decide, rfl⟩,
   concurrentRuns_usage_always_zero glueRunningEnv rfl (by decide)
    (by
      intro j p hp r hr n
      simp only [glueRunningEnv, List.mem_singleton] at hp
      subst hp
      simp only [List.mem_singleton] at hr
      subst hr
      exact (by decide : (5 : ℕ) ≠ 1000))⟩
